import Mathlib

/-!
# Verification of `rope.h` — a UTF-8 aware rope

This file gives a shallow embedding of the rope data structure implemented in
`src/rope.h` and proves (or refutes) the specification claims about it.

Modelling conventions:
* C byte buffers (`char *` + length) become `List Nat`, each element a byte value.
* `size_t` arithmetic on positions and counts never overflows for realistic
  documents; it is modelled by `Nat`.
* The internal tree node (`rope_node_t`) becomes the inductive `Node`.  In the
  C code every branch created by `node_new_branch` has two non-NULL children
  (no call site passes NULL), so branch children are plain `Node`s; a possibly
  NULL tree (e.g. a rope's root or a split fragment) is an `Option Node`.
* A leaf's cached `byte_len` / `char_len` / `newlines` are always computed by
  `node_new_leaf` from its data and are never mutated afterwards, so the
  embedding stores leaf data only and recomputes those fields; a branch's
  cached weights are genuinely mutable state and are stored explicitly.
* A nullable `rope_t *` handle is an `Option Rope`; the query functions that
  check for NULL in C are defined on `Option Rope`.
-/

namespace RopeModel

/-! ## UTF-8 codec (`utf8_char_len`, `utf8_decode` and the static scans) -/

/-- Model of `utf8_char_len` from rope.h: sequence length advertised by a lead byte;
any invalid lead byte is reported as length 1. -/
def utf8_char_len (first_byte : Nat) : Nat :=
  if first_byte &&& 0x80 == 0 then 1
  else if first_byte &&& 0xE0 == 0xC0 then 2
  else if first_byte &&& 0xF0 == 0xE0 then 3
  else if first_byte &&& 0xF8 == 0xF0 then 4
  else 1

/-- Model of `utf8_decode` from rope.h.  The argument is the remaining input slice
(`str` with `len = s.length`); the result is `(codepoint, bytes_read)`.
If the advertised length exceeds the input, the result is `(0xFFFD, 1)`;
otherwise the scalar is assembled from the advertised number of bytes with
no validation of continuation bytes. -/
def utf8_decode (s : List Nat) : Nat × Nat :=
  match s with
  | [] => (0, 0)
  | first :: rest =>
    let cl := utf8_char_len first
    if cl > (first :: rest).length then (0xFFFD, 1)
    else
      match cl with
      | 1 => (first, 1)
      | 2 => (((first &&& 0x1F) <<< 6) ||| (rest.getD 0 0 &&& 0x3F), 2)
      | 3 => (((first &&& 0x0F) <<< 12) ||| ((rest.getD 0 0 &&& 0x3F) <<< 6) |||
              (rest.getD 1 0 &&& 0x3F), 3)
      | 4 => (((first &&& 0x07) <<< 18) ||| ((rest.getD 0 0 &&& 0x3F) <<< 12) |||
              ((rest.getD 1 0 &&& 0x3F) <<< 6) ||| (rest.getD 2 0 &&& 0x3F), 4)
      | _ => (0xFFFD, cl)

/-- Model of `utf8_char_count` from rope.h: walks lead bytes, clamping a truncated
trailing sequence to the end of the slice (it still counts as one char). -/
def utf8_char_count (s : List Nat) : Nat :=
  match s with
  | [] => 0
  | first :: rest => 1 + utf8_char_count ((first :: rest).drop (utf8_char_len first))
termination_by s.length
decreasing_by
  have h1 : 1 ≤ utf8_char_len first := by
    simp only [utf8_char_len]
    split <;> try omega
    split <;> try omega
    split <;> try omega
    split <;> omega
  simp only [List.length_drop, List.length_cons]
  omega

/-- Model of `count_newlines` from rope.h: counts literal `0x0A` bytes. -/
def count_newlines (s : List Nat) : Nat :=
  match s with
  | [] => 0
  | b :: rest => (if b == 10 then 1 else 0) + count_newlines rest

/-- Model of `utf8_char_to_byte` from rope.h: byte offset of the `char_pos`-th
character; the scan stops early (returning the current offset) at a
truncated trailing sequence. -/
def utf8_char_to_byte (s : List Nat) (char_pos : Nat) : Nat :=
  match s, char_pos with
  | [], _ => 0
  | _ :: _, 0 => 0
  | first :: rest, k + 1 =>
    let cl := utf8_char_len first
    if cl > (first :: rest).length then 0
    else cl + utf8_char_to_byte ((first :: rest).drop cl) k
termination_by s.length
decreasing_by
  have h1 : 1 ≤ utf8_char_len first := by
    simp only [utf8_char_len]
    split <;> try omega
    split <;> try omega
    split <;> try omega
    split <;> omega
  simp only [List.length_drop, List.length_cons]
  omega

/-- The scanning loop of `utf8_byte_to_char` from rope.h (the branch taken
when `byte_pos < byte_len`): counts the characters whose encodings are
entirely contained in the first `byte_pos` bytes; a position interior to a
multi-byte sequence resolves to the containing character's index. -/
def utf8_b2c_scan (s : List Nat) (byte_pos : Nat) : Nat :=
  match s, byte_pos with
  | _, 0 => 0
  | [], _ + 1 => 0
  | first :: rest, k + 1 =>
    let cl := utf8_char_len first
    if cl > (first :: rest).length then 0
    else if cl > k + 1 then 0
    else 1 + utf8_b2c_scan ((first :: rest).drop cl) (k + 1 - cl)
termination_by s.length
decreasing_by
  have h1 : 1 ≤ utf8_char_len first := by
    simp only [utf8_char_len]
    split <;> try omega
    split <;> try omega
    split <;> try omega
    split <;> omega
  simp only [List.length_drop, List.length_cons]
  omega

/-- Model of `utf8_byte_to_char` from rope.h. -/
def utf8_byte_to_char (s : List Nat) (byte_pos : Nat) : Nat :=
  if byte_pos ≥ s.length then utf8_char_count s else utf8_b2c_scan s byte_pos

/-- Model of `validate_utf8` from rope.h: checks that no sequence is truncated and
that all continuation bytes match `10xxxxxx`. -/
def validate_utf8 (s : List Nat) : Bool :=
  match s with
  | [] => true
  | first :: rest =>
    let cl := utf8_char_len first
    if cl > (first :: rest).length then false
    else ((rest.take (cl - 1)).all fun c => c &&& 0xC0 == 0x80) &&
         validate_utf8 ((first :: rest).drop cl)
termination_by s.length
decreasing_by
  have h1 : 1 ≤ utf8_char_len first := by
    simp only [utf8_char_len]
    split <;> try omega
    split <;> try omega
    split <;> try omega
    split <;> omega
  simp only [List.length_drop, List.length_cons]
  omega

/-! Specification-side notions used to state claims about decoded content. -/

/-- The sequence of scalar values obtained by repeatedly running
`utf8_decode` on a byte slice and advancing by the number of bytes it
consumed.  This is the reference meaning of "the characters of the
content" used to state the claims. -/
def utf8_chars (s : List Nat) : List Nat :=
  match s with
  | [] => []
  | first :: rest =>
    (utf8_decode (first :: rest)).1 ::
      utf8_chars ((first :: rest).drop (utf8_decode (first :: rest)).2)
termination_by s.length
decreasing_by
  have h1 : 1 ≤ (utf8_decode (first :: rest)).2 := by
    simp only [utf8_decode]
    split
    · simp
    · have h2 : 1 ≤ utf8_char_len first := by
        simp only [utf8_char_len]
        split <;> try omega
        split <;> try omega
        split <;> try omega
        split <;> omega
      have h4 : utf8_char_len first ≤ 4 := by
        simp only [utf8_char_len]
        split <;> try omega
        split <;> try omega
        split <;> try omega
        split <;> omega
      interval_cases utf8_char_len first <;> simp_all
  simp only [List.length_drop, List.length_cons]
  omega

/-- A byte slice is scan-complete when the greedy lead-byte scan never meets
a truncated trailing sequence: every advertised sequence length fits in the
slice.  Leaves of a rope built by boundary-respecting operations satisfy
this. -/
def scan_complete (s : List Nat) : Bool :=
  match s with
  | [] => true
  | first :: rest =>
    utf8_char_len first ≤ (first :: rest).length &&
    scan_complete ((first :: rest).drop (utf8_char_len first))
termination_by s.length
decreasing_by
  have h1 : 1 ≤ utf8_char_len first := by
    simp only [utf8_char_len]
    split <;> try omega
    split <;> try omega
    split <;> try omega
    split <;> omega
  simp only [List.length_drop, List.length_cons]
  omega

/-! ## The tree (`rope_node_t`) and its operations -/

/-- Model of `rb_color_t` from rope.h. -/
inductive Color where
  | red
  | black
deriving DecidableEq, Repr

/-- Model of `rope_node_t` from rope.h.  A leaf stores its byte buffer and color (its
cached `byte_len` / `char_len` / `newlines` and its weight fields are always
the recomputation from the buffer, see the header comment).  A branch stores
its color, its three cached left-subtree weights (`byte_weight`,
`char_weight`, `newline_weight`) and its two children. -/
inductive Node where
  | leaf (data : List Nat) (color : Color)
  | branch (color : Color) (byte_weight char_weight newline_weight : Nat) (l r : Node)
deriving DecidableEq, Repr

namespace Node

/-- Accessor `node->is_leaf`. -/
def isLeaf : Node → Bool
  | leaf _ _ => true
  | branch _ _ _ _ _ _ => false

/-- Accessor `node->color` (of a non-NULL node). -/
def nodeColor : Node → Color
  | leaf _ c => c
  | branch c _ _ _ _ _ => c

/-- Overwrite a node's color (`node->color = c`). -/
def setColor : Node → Color → Node
  | leaf d _, c => leaf d c
  | branch _ bw cw nw l r, c => branch c bw cw nw l r

/-- Accessor `node->byte_weight`: for a leaf this equals its `byte_len`. -/
def byteWeight : Node → Nat
  | leaf d _ => d.length
  | branch _ bw _ _ _ _ => bw

/-- Accessor `node->char_weight`: for a leaf this equals its `char_len`. -/
def charWeight : Node → Nat
  | leaf d _ => utf8_char_count d
  | branch _ _ cw _ _ _ => cw

/-- Accessor `node->newline_weight`: for a leaf this equals its `newlines`. -/
def newlineWeight : Node → Nat
  | leaf d _ => count_newlines d
  | branch _ _ _ nw _ _ => nw

end Node

/-- Model of `node_byte_len` from rope.h: total bytes below a node, computed from the
cached weights (`byte_weight + node_byte_len(right)` for a branch). -/
def node_byte_len : Node → Nat
  | Node.leaf d _ => d.length
  | Node.branch _ bw _ _ _ r => bw + node_byte_len r

/-- Model of `node_char_len` from rope.h. -/
def node_char_len : Node → Nat
  | Node.leaf d _ => utf8_char_count d
  | Node.branch _ _ cw _ _ r => cw + node_char_len r

/-- Model of `node_newline_count` from rope.h. -/
def node_newline_count : Node → Nat
  | Node.leaf d _ => count_newlines d
  | Node.branch _ _ _ nw _ r => nw + node_newline_count r

/-- Model of `node_new_leaf` from rope.h: a fresh RED leaf whose cached metrics are
computed from the buffer. -/
def node_new_leaf (s : List Nat) : Node := Node.leaf s Color.red

/-- Model of `node_new_branch` from rope.h: a fresh RED branch over two (non-NULL)
children.  In the C code the weights are taken as `left->byte_weight` for a
leaf and `left->byte_weight + node_byte_len(left->branch.right)` for a
branch, which in both cases is exactly `node_byte_len left` (and likewise
for the other two metrics). -/
def node_new_branch (l r : Node) : Node :=
  Node.branch Color.red (node_byte_len l) (node_char_len l) (node_newline_count l) l r

/-- Model of `node_update_weights` from rope.h: recompute a branch's cached weights
from its (non-NULL) left child; leaves are returned unchanged. -/
def node_update_weights : Node → Node
  | Node.leaf d c => Node.leaf d c
  | Node.branch c _ _ _ l r =>
    Node.branch c (node_byte_len l) (node_char_len l) (node_newline_count l) l r

/-- Model of `node_color` from rope.h: a missing node counts as BLACK. -/
def node_color : Option Node → Color
  | none => Color.black
  | some n => n.nodeColor

/-- The left child of a branch, `none` for a leaf. -/
def left_child : Node → Option Node
  | Node.leaf _ _ => none
  | Node.branch _ _ _ _ l _ => some l

/-- The right child of a branch, `none` for a leaf. -/
def right_child : Node → Option Node
  | Node.leaf _ _ => none
  | Node.branch _ _ _ _ _ r => some r

/-- Model of `rotate_left` from rope.h.  The rotation is skipped (the node returned
unchanged) when the node or its right child is a leaf.  Afterwards both
affected branches carry freshly recomputed weights, the new top inherits the
old color, and the demoted node becomes RED. -/
def rotate_left : Node → Node
  | Node.leaf d c => Node.leaf d c
  | Node.branch c bw cw nw l r =>
    match r with
    | Node.leaf rd rc => Node.branch c bw cw nw l (Node.leaf rd rc)
    | Node.branch _ _ _ _ rl rr =>
      let node' := Node.branch Color.red (node_byte_len l) (node_char_len l)
        (node_newline_count l) l rl
      Node.branch c (node_byte_len node') (node_char_len node')
        (node_newline_count node') node' rr

/-- Model of `rotate_right` from rope.h (mirror image of `rotate_left`): the demoted
node keeps children `(left->branch.right, r)` and both affected branches get
recomputed weights. -/
def rotate_right : Node → Node
  | Node.leaf d c => Node.leaf d c
  | Node.branch c bw cw nw l r =>
    match l with
    | Node.leaf ld lc => Node.branch c bw cw nw (Node.leaf ld lc) r
    | Node.branch _ _ _ _ ll lr =>
      let node' := Node.branch Color.red (node_byte_len lr) (node_char_len lr)
        (node_newline_count lr) lr r
      Node.branch c (node_byte_len ll) (node_char_len ll)
        (node_newline_count ll) ll node'

/-- Model of `flip_colors` from rope.h: self RED, both children BLACK (only ever
called on a branch). -/
def flip_colors : Node → Node
  | Node.leaf d _ => Node.leaf d Color.red
  | Node.branch _ bw cw nw l r =>
    Node.branch Color.red bw cw nw (l.setColor Color.black) (r.setColor Color.black)

/-- Model of `balance` from rope.h.  The three LLRB cases, with rotations restricted
to branch children.  `left_is_branch` / `right_is_branch` are computed once
on entry, and the second condition reuses the (possibly stale)
`left_is_branch` after a left rotation, exactly as the C code does.  The
`node->branch.left->branch.left` access is modelled by `left_child`
composition, which agrees with the C union access in every state the guard
lets through (the guard's `left_is_branch` ensures the child is a branch). -/
def balance (n : Node) : Node :=
  match n with
  | Node.leaf d c => Node.leaf d c
  | Node.branch c0 bw0 cw0 nw0 l0 r0 =>
    let lib := !l0.isLeaf
    let rib := !r0.isLeaf
    let n0 := Node.branch c0 bw0 cw0 nw0 l0 r0
    let n1 :=
      if node_color (right_child n0) == Color.red &&
         node_color (left_child n0) == Color.black && rib then
        rotate_left n0
      else n0
    let n2 :=
      if node_color (left_child n1) == Color.red && lib &&
         ((left_child n1).bind left_child).isSome &&
         node_color ((left_child n1).bind left_child) == Color.red then
        rotate_right n1
      else n1
    if node_color (left_child n2) == Color.red &&
       node_color (right_child n2) == Color.red then
      flip_colors n2
    else n2

/-! ## The rope handle (`struct rope`) and the public operations -/

/-- Model of `struct rope` from rope.h: the root (a nullable node pointer) and the
cached whole-document totals. -/
structure Rope where
  root : Option Node
  byte_len : Nat
  char_len : Nat
  newlines : Nat
deriving DecidableEq, Repr

/-- Model of `rope_stats_t` from rope.h. -/
structure RopeStats where
  bytes : Nat
  chars : Nat
  newlines : Nat
deriving DecidableEq, Repr

/-- Model of `rope_new` from rope.h: a zeroed handle. -/
def rope_new : Rope := ⟨none, 0, 0, 0⟩

/-- Model of `rope_new_from_str` from rope.h: a single BLACK leaf for nonempty input,
an empty rope otherwise. -/
def rope_new_from_str (s : List Nat) : Rope :=
  if s.length > 0 then
    ⟨some ((node_new_leaf s).setColor Color.black),
     s.length, utf8_char_count s, count_newlines s⟩
  else rope_new

/-- Model of `rope_byte_length` from rope.h (`NULL` handle → 0). -/
def rope_byte_length : Option Rope → Nat
  | none => 0
  | some r => r.byte_len

/-- Model of `rope_char_length` from rope.h (`NULL` handle → 0). -/
def rope_char_length : Option Rope → Nat
  | none => 0
  | some r => r.char_len

/-- Model of `rope_stats` from rope.h (`NULL` handle → all-zero stats). -/
def rope_stats : Option Rope → RopeStats
  | none => ⟨0, 0, 0⟩
  | some r => ⟨r.byte_len, r.char_len, r.newlines⟩

/-- The descending loop of `rope_char_to_byte`: at a branch go left when the
position is below `char_weight`, otherwise subtract the char weight, add the
byte weight to the byte offset and go right; in the landing leaf finish by
`utf8_char_to_byte`. -/
def node_char_to_byte : Node → Nat → Nat
  | Node.leaf d _, k => utf8_char_to_byte d k
  | Node.branch _ bw cw _ l r, k =>
    if k < cw then node_char_to_byte l k
    else bw + node_char_to_byte r (k - cw)

/-- Model of `rope_char_to_byte` from rope.h. -/
def rope_char_to_byte : Option Rope → Nat → Nat
  | none, _ => 0
  | some r, char_pos =>
    if char_pos ≥ r.char_len then r.byte_len
    else
      match r.root with
      | none => 0
      | some n => node_char_to_byte n char_pos

/-- The descending loop of `rope_byte_to_char` (mirror of
`node_char_to_byte`), finishing with `utf8_byte_to_char` in the leaf. -/
def node_byte_to_char : Node → Nat → Nat
  | Node.leaf d _, b => utf8_byte_to_char d b
  | Node.branch _ bw cw _ l r, b =>
    if b < bw then node_byte_to_char l b
    else cw + node_byte_to_char r (b - bw)

/-- Model of `rope_byte_to_char` from rope.h. -/
def rope_byte_to_char : Option Rope → Nat → Nat
  | none, _ => 0
  | some r, byte_pos =>
    if byte_pos ≥ r.byte_len then r.char_len
    else
      match r.root with
      | none => 0
      | some n => node_byte_to_char n byte_pos

/-- The second walk of `rope_char_at`: descend by byte weights and decode at
the remaining offset inside the landing leaf (0 when the offset is not
below the leaf's length). -/
def node_byte_decode : Node → Nat → Nat
  | Node.leaf d _, b => if b < d.length then (utf8_decode (d.drop b)).1 else 0
  | Node.branch _ bw _ _ l r, b =>
    if b < bw then node_byte_decode l b
    else node_byte_decode r (b - bw)

/-- Model of `rope_char_at` from rope.h: 0 for a NULL handle or a position at or past
`char_len`; otherwise resolve the byte position with `rope_char_to_byte`,
walk down by byte weights again, and decode inside the landing leaf. -/
def rope_char_at (o : Option Rope) (char_pos : Nat) : Nat :=
  match o with
  | none => 0
  | some r =>
    if char_pos ≥ r.char_len then 0
    else
      let byte_pos := rope_char_to_byte (some r) char_pos
      match r.root with
      | none => 0
      | some n => node_byte_decode n byte_pos

/-- In-order concatenation of all leaf buffers; this is what the stack-based
traversal of `rope_to_string` collects. -/
def Node.toList : Node → List Nat
  | Node.leaf d _ => d
  | Node.branch _ _ _ _ l r => l.toList ++ r.toList

/-- Model of `rope_to_string` from rope.h: NULL (modelled as the empty list, with
reported length 0) for a NULL handle or an empty rope, otherwise the
in-order concatenation of the leaves. -/
def rope_to_string : Option Rope → List Nat
  | none => []
  | some r =>
    if r.byte_len == 0 then []
    else
      match r.root with
      | none => []
      | some n => n.toList

/-- Model of `rope_concat` from rope.h: an empty side is dropped (and freed), its
partner returned unchanged; otherwise a fresh BLACK branch over the two
roots with summed totals.  The C code dereferences both roots in the main
path; a nonempty rope whose root is NULL cannot be produced by the API, and
the model returns an empty rope in that impossible state. -/
def rope_concat (l r : Rope) : Rope :=
  if l.byte_len == 0 then r
  else if r.byte_len == 0 then l
  else
    match l.root, r.root with
    | some ln, some rn =>
      ⟨some ((node_new_branch ln rn).setColor Color.black),
       l.byte_len + r.byte_len, l.char_len + r.char_len, l.newlines + r.newlines⟩
    | _, _ => rope_new

/-- Model of `split_leaf` from rope.h: degenerate positions hand the whole leaf to
one side; otherwise two fresh leaves carrying the original's color. -/
def split_leaf (d : List Nat) (c : Color) (byte_pos : Nat) : Option Node × Option Node :=
  if byte_pos == 0 then (none, some (Node.leaf d c))
  else if byte_pos ≥ d.length then (some (Node.leaf d c), none)
  else (some ((node_new_leaf (d.take byte_pos)).setColor c),
        some ((node_new_leaf (d.drop byte_pos)).setColor c))

/-- Model of `node_split_recursive` from rope.h: split below the byte weight into the
left subtree (re-joining the returned right fragment with the old right
child under a branch carrying the old node's color), otherwise into the
right subtree, symmetrically. -/
def node_split_recursive : Node → Nat → Option Node × Option Node
  | Node.leaf d c, byte_pos => split_leaf d c byte_pos
  | Node.branch c bw _ _ l r, byte_pos =>
    if byte_pos ≤ bw then
      match node_split_recursive l byte_pos with
      | (ll, some lr) => (ll, some ((node_new_branch lr r).setColor c))
      | (ll, none) => (ll, some r)
    else
      match node_split_recursive r (byte_pos - bw) with
      | (some rl, rr) => (some ((node_new_branch l rl).setColor c), rr)
      | (none, rr) => (some l, rr)

/-- Wrapping one split fragment into a rope handle, as `rope_split_bytes`
does: recolor the fragment's root BLACK and recompute the cached totals
with `node_byte_len` / `node_char_len` / `node_newline_count`. -/
def rope_of_tree : Option Node → Rope
  | none => rope_new
  | some t =>
    ⟨some (t.setColor Color.black),
     node_byte_len t, node_char_len t, node_newline_count t⟩

/-- Model of `rope_split_bytes` from rope.h, returning `(left, right)` where the C
code returns the left rope and stores the right one through `right_out`. -/
def rope_split_bytes (r : Rope) (byte_pos : Nat) : Rope × Rope :=
  if byte_pos == 0 then (rope_new, r)
  else if byte_pos ≥ r.byte_len then (r, rope_new)
  else
    match r.root with
    | none => (rope_new, rope_new)
    | some n =>
      let (lt, rt) := node_split_recursive n byte_pos
      (rope_of_tree lt, rope_of_tree rt)

/-- Model of `rope_split_chars` from rope.h: convert the character position, then
split by bytes. -/
def rope_split_chars (r : Rope) (char_pos : Nat) : Rope × Rope :=
  rope_split_bytes r (rope_char_to_byte (some r) char_pos)

/-- Model of `node_insert_bytes` from rope.h: at a leaf, prepend / append / split in
the middle (all re-balanced on the way out); at a branch, descend by byte
weight (`byte_pos ≤ byte_weight` goes left), recompute the weights and
re-balance. -/
def node_insert_bytes : Node → Nat → List Nat → Node
  | Node.leaf d c, byte_pos, s =>
    if byte_pos == 0 then
      balance (node_new_branch (node_new_leaf s) (Node.leaf d c))
    else if byte_pos ≥ d.length then
      balance (node_new_branch (Node.leaf d c) (node_new_leaf s))
    else
      let left := node_new_leaf (d.take byte_pos)
      let mid := node_new_leaf s
      let right := node_new_leaf (d.drop byte_pos)
      balance (node_new_branch (node_new_branch left mid) right)
  | Node.branch c bw cw nw l r, byte_pos, s =>
    if byte_pos ≤ bw then
      balance (node_update_weights (Node.branch c bw cw nw (node_insert_bytes l byte_pos s) r))
    else
      balance (node_update_weights
        (Node.branch c bw cw nw l (node_insert_bytes r (byte_pos - bw) s)))

/-- Model of `rope_insert_bytes` from rope.h: a zero-length insert returns the handle
unchanged; the position is clamped to `byte_len`; an empty rope gets a
single BLACK leaf; and the cached totals are increased by the recomputed
metrics of the inserted bytes. -/
def rope_insert_bytes (r : Rope) (byte_pos : Nat) (s : List Nat) : Rope :=
  if s.length == 0 then r
  else
    let bp := if byte_pos > r.byte_len then r.byte_len else byte_pos
    let root' :=
      match r.root with
      | none => (node_new_leaf s).setColor Color.black
      | some n => (node_insert_bytes n bp s).setColor Color.black
    ⟨some root', r.byte_len + s.length, r.char_len + utf8_char_count s,
     r.newlines + count_newlines s⟩

/-- Model of `rope_insert_chars` from rope.h. -/
def rope_insert_chars (r : Rope) (char_pos : Nat) (s : List Nat) : Rope :=
  rope_insert_bytes r (rope_char_to_byte (some r) char_pos) s

/-- Model of `rope_delete_bytes` from rope.h: clamp, then split at the start, split
the right part at the length, drop the middle and concatenate the rest.
(The C intermediate `right` / `rightmost` pointers are never NULL here.) -/
def rope_delete_bytes (r : Rope) (byte_start byte_len : Nat) : Rope :=
  if byte_start ≥ r.byte_len then r
  else
    let len := if byte_start + byte_len > r.byte_len then r.byte_len - byte_start else byte_len
    if len == 0 then r
    else
      let (left, right) := rope_split_bytes r byte_start
      let (_, rightmost) := rope_split_bytes right len
      rope_concat left rightmost

/-- Model of `rope_delete_chars` from rope.h. -/
def rope_delete_chars (r : Rope) (char_start char_len : Nat) : Rope :=
  if char_start ≥ r.char_len then r
  else
    let byte_start := rope_char_to_byte (some r) char_start
    let byte_end := rope_char_to_byte (some r) (char_start + char_len)
    rope_delete_bytes r byte_start (byte_end - byte_start)

/-- Model of `rope_line_count` from rope.h: `newlines + 1`, and 1 for a NULL handle. -/
def rope_line_count : Option Rope → Nat
  | none => 1
  | some r => r.newlines + 1

/-- The scanning loop of `rope_line_to_char`: at index `i` with
`current_line` newlines seen so far, return `i` once `current_line` equals
the requested line, else advance (bumping the count on a newline
character); return `char_len` when the characters run out. -/
def rope_line_to_char_loop (r : Rope) (line i current_line : Nat) : Nat :=
  if i < r.char_len then
    if current_line == line then i
    else rope_line_to_char_loop r line (i + 1)
      (if rope_char_at (some r) i == 10 then current_line + 1 else current_line)
  else r.char_len
termination_by r.char_len - i

/-- Model of `rope_line_to_char` from rope.h (0 for a NULL handle). -/
def rope_line_to_char : Option Rope → Nat → Nat
  | none, _ => 0
  | some r, line => rope_line_to_char_loop r line 0 0

/-! ## Invariants -/

/-- Sum over all leaves (in order) of the recomputed UTF-8 character count
of the leaf's buffer. -/
def leaf_char_sum : Node → Nat
  | Node.leaf d _ => utf8_char_count d
  | Node.branch _ _ _ _ l r => leaf_char_sum l + leaf_char_sum r

/-- Sum over all leaves of the recomputed newline count. -/
def leaf_newline_sum : Node → Nat
  | Node.leaf d _ => count_newlines d
  | Node.branch _ _ _ _ l r => leaf_newline_sum l + leaf_newline_sum r

/-- Metric consistency of the cached weights: every branch's three cached
`left_*` weights equal the recursive totals (recomputed from the leaf
buffers) of its left subtree. -/
def weights_ok : Node → Bool
  | Node.leaf _ _ => true
  | Node.branch _ bw cw nw l r =>
    bw == l.toList.length && cw == leaf_char_sum l && nw == leaf_newline_sum l &&
    weights_ok l && weights_ok r

/-- Structural well-formedness of a rope handle: cached weights are
consistent and the cached `byte_len` matches the leaves.  This holds after
every sequence of public operations (even boundary-violating ones). -/
def Rope.swf (r : Rope) : Bool :=
  match r.root with
  | none => r.byte_len == 0
  | some n => weights_ok n && r.byte_len == n.toList.length

/-- Full metric well-formedness of a rope handle: `Rope.swf` plus agreement
of the cached `char_len` and `newlines` with the per-leaf recomputation. -/
def Rope.wf (r : Rope) : Bool :=
  match r.root with
  | none => r.byte_len == 0 && r.char_len == 0 && r.newlines == 0
  | some n => weights_ok n && r.byte_len == n.toList.length &&
      r.char_len == leaf_char_sum n && r.newlines == leaf_newline_sum n

/-- Every leaf's buffer is `scan_complete` (no truncated trailing UTF-8
sequence inside a leaf). -/
def leaves_complete : Node → Bool
  | Node.leaf d _ => scan_complete d
  | Node.branch _ _ _ _ l r => leaves_complete l && leaves_complete r

/-- Rope-level version of `leaves_complete`. -/
def Rope.complete (r : Rope) : Bool :=
  match r.root with
  | none => true
  | some n => leaves_complete n

/-- The red-black color invariant claimed by the spec: no red node has a red
child, and the root is BLACK. -/
def no_red_red : Node → Bool
  | Node.leaf _ _ => true
  | Node.branch c _ _ _ l r =>
    (c == Color.black || (l.nodeColor == Color.black && r.nodeColor == Color.black)) &&
    no_red_red l && no_red_red r

/-- Claimed color invariant at the rope level. -/
def Rope.rb_ok (r : Rope) : Bool :=
  match r.root with
  | none => true
  | some n => n.nodeColor == Color.black && no_red_red n

/-- The root color alone (forced BLACK after each public mutation). -/
def Rope.root_black (r : Rope) : Bool :=
  match r.root with
  | none => true
  | some n => n.nodeColor == Color.black

/-- The byte position (already clamped) at which a `rope_insert_bytes` will
land is additive for the character metric: the leaf it reaches is split at a
point where the two halves' recomputed character counts add up to the
whole's.  This is exactly "the clamped position falls on a UTF-8 character
boundary of the landing leaf". -/
def insert_ok : Node → Nat → Bool
  | Node.leaf d _, byte_pos =>
    byte_pos == 0 || byte_pos ≥ d.length ||
    utf8_char_count (d.take byte_pos) + utf8_char_count (d.drop byte_pos) ==
      utf8_char_count d
  | Node.branch _ bw _ _ l r, byte_pos =>
    if byte_pos ≤ bw then insert_ok l byte_pos else insert_ok r (byte_pos - bw)

/-- Rope-level `insert_ok` for a raw (unclamped) insert position. -/
def Rope.insert_ok_at (r : Rope) (byte_pos : Nat) : Bool :=
  match r.root with
  | none => true
  | some n => insert_ok n (if byte_pos > r.byte_len then r.byte_len else byte_pos)

/-! ## Sequences of public operations

A `Prog` denotes a rope built by a sequence of the public byte-keyed
mutating operations (the character-keyed variants delegate to these after a
position conversion).  `Prog.eval` runs it. -/

inductive Prog where
  | fromStr (s : List Nat) : Prog
  | insert (p : Prog) (byte_pos : Nat) (s : List Nat) : Prog
  | delete (p : Prog) (byte_start byte_len : Nat) : Prog
  | splitL (p : Prog) (byte_pos : Nat) : Prog
  | splitR (p : Prog) (byte_pos : Nat) : Prog
  | concat (p q : Prog) : Prog

/-- Run a sequence of public operations. -/
def Prog.eval : Prog → Rope
  | .fromStr s => rope_new_from_str s
  | .insert p bp s => rope_insert_bytes p.eval bp s
  | .delete p a n => rope_delete_bytes p.eval a n
  | .splitL p bp => (rope_split_bytes p.eval bp).1
  | .splitR p bp => (rope_split_bytes p.eval bp).2
  | .concat p q => rope_concat p.eval q.eval

/-- Every insert position in the sequence (after clamping) falls on a UTF-8
character boundary of the leaf it lands in. -/
def Prog.insertsAligned : Prog → Bool
  | .fromStr _ => true
  | .insert p bp _ => p.insertsAligned && p.eval.insert_ok_at bp
  | .delete p _ _ => p.insertsAligned
  | .splitL p _ => p.insertsAligned
  | .splitR p _ => p.insertsAligned
  | .concat p q => p.insertsAligned && q.insertsAligned

/-! ## Remaining specification-side definitions -/

/-- In-order leaf content of a nullable tree. -/
def optToList : Option Node → List Nat
  | none => []
  | some n => n.toList

/-- Weight consistency of a nullable tree. -/
def weights_ok_o : Option Node → Bool
  | none => true
  | some n => weights_ok n

/-- Scan-completeness of every leaf of a nullable tree. -/
def leaves_complete_o : Option Node → Bool
  | none => true
  | some n => leaves_complete n

/-- Sum of recomputed per-leaf character counts of a nullable tree. -/
def leaf_char_sum_o : Option Node → Nat
  | none => 0
  | some n => leaf_char_sum n

/-- The character index immediately after the `k`-th newline character of a
character sequence (line 0 starts at index 0), clamped to the sequence
length when there are fewer than `k` newlines.  This is the behaviour the
specification ascribes to `rope_line_to_char`. -/
def line_to_char_spec (cs : List Nat) (k : Nat) : Nat :=
  match cs, k with
  | _, 0 => 0
  | [], _ + 1 => 0
  | c :: rest, k + 1 => 1 + line_to_char_spec rest (if c = 10 then k else k + 1)

/-- A rope holding the two halves of the 2-byte character U+00E9 in separate
leaves: built by the public operations `split` at byte position 1 (interior
to the character) followed by `concat`.  Used to refute boundary-sensitive
claims. -/
def split_e9_rope : Rope :=
  let pr := rope_split_bytes (rope_new_from_str [0xC3, 0xA9]) 1
  rope_concat pr.1 pr.2

/-- An operation sequence whose final insert lands inside the 2-byte
character U+00E9: refutes the universal `char_len` consistency claim. -/
def misaligned_insert_prog : Prog := .insert (.fromStr [0xC3, 0xA9]) 1 [0x41]

/-- An operation sequence of three plain ASCII operations after which the
tree contains a red branch with a red child. -/
def red_red_prog : Prog :=
  .insert (.insert (.fromStr [99, 99, 99]) 2 [121, 121]) 2 [121, 121]

/-- A rope built from the single valid-per-`validate_utf8` buffer
`C0 8A 41`, whose first character is an overlong encoding of the newline
scalar: the byte-level newline count is 0 while the decoded character
sequence contains a newline. -/
def overlong_newline_rope : Rope := rope_new_from_str [0xC0, 0x8A, 0x41]

/-- An operation sequence whose insert splits the buffer right after the
lead byte `C3`, which lets the following `F0` lead byte absorb what used to
be three separate continuation-byte characters: the cached `char_len` (5)
ends up larger than the recomputed per-leaf character total (3). -/
def merge_insert_prog : Prog :=
  .insert (.fromStr [0xC3, 0xF0, 0x9F, 0x98, 0x80]) 1 [0x41]

/-! ## Lemmas about the UTF-8 codec -/

theorem utf8_char_len_pos (b : Nat) : 1 ≤ utf8_char_len b := by
  simp only [utf8_char_len]
  split <;> try omega
  split <;> try omega
  split <;> try omega
  split <;> omega

theorem utf8_char_len_le_four (b : Nat) : utf8_char_len b ≤ 4 := by
  simp only [utf8_char_len]
  split <;> try omega
  split <;> try omega
  split <;> try omega
  split <;> omega

theorem utf8_decode_trunc (first : Nat) (rest : List Nat)
    (h : utf8_char_len first > (first :: rest).length) :
    utf8_decode (first :: rest) = (0xFFFD, 1) := by
  rw [utf8_decode]
  exact if_pos h

theorem utf8_decode_len_one (first : Nat) (rest : List Nat)
    (h : utf8_char_len first = 1) :
    utf8_decode (first :: rest) = (first, 1) := by
  rw [utf8_decode]
  simp only [h, List.length_cons]
  rw [if_neg (by omega)]

theorem utf8_decode_snd_eq (first : Nat) (rest : List Nat)
    (h : utf8_char_len first ≤ (first :: rest).length) :
    (utf8_decode (first :: rest)).2 = utf8_char_len first := by
  have h1 := utf8_char_len_pos first
  have h4 := utf8_char_len_le_four first
  rw [utf8_decode]
  split
  · omega
  · interval_cases utf8_char_len first <;> simp

theorem utf8_decode_append (first : Nat) (rest u : List Nat)
    (h : utf8_char_len first ≤ (first :: rest).length) :
    utf8_decode ((first :: rest) ++ u) = utf8_decode (first :: rest) := by
  have h1 := utf8_char_len_pos first
  have h4 := utf8_char_len_le_four first
  simp only [List.length_cons] at h
  rw [List.cons_append, utf8_decode, utf8_decode]
  rw [if_neg (by simp; omega), if_neg (by simp; omega)]
  interval_cases utf8_char_len first
  · rfl
  · rw [List.getD_append _ _ _ _ (by omega)]
  · rw [List.getD_append _ _ _ _ (by omega), List.getD_append _ _ _ _ (by omega)]
  · rw [List.getD_append _ _ _ _ (by omega), List.getD_append _ _ _ _ (by omega),
        List.getD_append _ _ _ _ (by omega)]

theorem count_newlines_append (a b : List Nat) :
    count_newlines (a ++ b) = count_newlines a + count_newlines b := by
  induction a with
  | nil => simp [count_newlines]
  | cons x rest ih =>
    rw [List.cons_append, count_newlines, count_newlines, ih]
    omega

theorem utf8_char_count_append (a b : List Nat) (h : scan_complete a = true) :
    utf8_char_count (a ++ b) = utf8_char_count a + utf8_char_count b := by
  induction a using scan_complete.induct with
  | case1 => simp [utf8_char_count]
  | case2 first rest ih =>
    rw [scan_complete] at h
    simp only [Bool.and_eq_true, decide_eq_true_eq] at h
    obtain ⟨hle, hrec⟩ := h
    rw [List.cons_append, utf8_char_count, utf8_char_count,
        ← List.cons_append, List.drop_append_of_le_length hle, ih hrec]
    omega

theorem scan_complete_append (a b : List Nat) (ha : scan_complete a = true)
    (hb : scan_complete b = true) : scan_complete (a ++ b) = true := by
  induction a using scan_complete.induct with
  | case1 => simpa using hb
  | case2 first rest ih =>
    rw [scan_complete] at ha
    simp only [Bool.and_eq_true, decide_eq_true_eq] at ha
    obtain ⟨hle, hrec⟩ := ha
    rw [List.cons_append, scan_complete]
    simp only [Bool.and_eq_true, decide_eq_true_eq]
    constructor
    · simp only [List.length_cons, List.length_append]
      simp only [List.length_cons] at hle
      omega
    · rw [← List.cons_append, List.drop_append_of_le_length hle]
      exact ih hrec

theorem utf8_chars_append (a b : List Nat) (ha : scan_complete a = true) :
    utf8_chars (a ++ b) = utf8_chars a ++ utf8_chars b := by
  induction a using scan_complete.induct with
  | case1 => rw [utf8_chars]; simp
  | case2 first rest ih =>
    rw [scan_complete] at ha
    simp only [Bool.and_eq_true, decide_eq_true_eq] at ha
    obtain ⟨hle, hrec⟩ := ha
    rw [List.cons_append, utf8_chars, utf8_chars, ← List.cons_append,
        utf8_decode_append first rest b hle]
    rw [utf8_decode_snd_eq first rest hle, List.drop_append_of_le_length hle,
        ih hrec, List.cons_append]

theorem utf8_chars_length (a : List Nat) (ha : scan_complete a = true) :
    (utf8_chars a).length = utf8_char_count a := by
  induction a using scan_complete.induct with
  | case1 => simp [utf8_chars, utf8_char_count]
  | case2 first rest ih =>
    rw [scan_complete] at ha
    simp only [Bool.and_eq_true, decide_eq_true_eq] at ha
    obtain ⟨hle, hrec⟩ := ha
    rw [utf8_chars, utf8_char_count, List.length_cons,
        utf8_decode_snd_eq first rest hle, ih hrec]
    omega

/-! ## Round-trip lemmas for the in-leaf scans -/

theorem utf8_char_to_byte_lt (s : List Nat) : ∀ k, k < utf8_char_count s →
    utf8_char_to_byte s k < s.length := by
  induction s using utf8_char_count.induct with
  | case1 => intro k h; rw [utf8_char_count] at h; omega
  | case2 first rest ih =>
    intro k h
    match k with
    | 0 => rw [utf8_char_to_byte]; simp
    | k + 1 =>
      rw [utf8_char_count] at h
      rw [utf8_char_to_byte]
      by_cases hc : utf8_char_len first > (first :: rest).length
      · have hd : (first :: rest).drop (utf8_char_len first) = [] :=
          List.drop_eq_nil_of_le (by omega)
        rw [hd, utf8_char_count] at h
        omega
      · rw [if_neg hc]
        have hrec := ih k (by omega)
        have hp := utf8_char_len_pos first
        simp only [List.length_drop, List.length_cons] at hrec ⊢
        omega

theorem utf8_b2c_scan_c2b (s : List Nat) : ∀ k, k < utf8_char_count s →
    utf8_b2c_scan s (utf8_char_to_byte s k) = k := by
  induction s using utf8_char_count.induct with
  | case1 => intro k h; rw [utf8_char_count] at h; omega
  | case2 first rest ih =>
    intro k h
    match k with
    | 0 =>
      rw [utf8_char_to_byte, utf8_b2c_scan]
    | k + 1 =>
      rw [utf8_char_count] at h
      rw [utf8_char_to_byte]
      by_cases hc : utf8_char_len first > (first :: rest).length
      · have hd : (first :: rest).drop (utf8_char_len first) = [] :=
          List.drop_eq_nil_of_le (by omega)
        rw [hd, utf8_char_count] at h
        omega
      · rw [if_neg hc]
        have hp := utf8_char_len_pos first
        set cl := utf8_char_len first with hcl
        set m := utf8_char_to_byte ((first :: rest).drop cl) k with hm
        have hsucc : cl + m = (cl + m - 1) + 1 := by omega
        rw [hsucc, utf8_b2c_scan]
        rw [if_neg hc, if_neg (by omega)]
        have : cl + m - 1 + 1 - cl = m := by omega
        rw [this, ih k (by omega)]
        omega

theorem utf8_byte_to_char_c2b (s : List Nat) (k : Nat) (h : k < utf8_char_count s) :
    utf8_byte_to_char s (utf8_char_to_byte s k) = k := by
  rw [utf8_byte_to_char, if_neg (by have := utf8_char_to_byte_lt s k h; omega)]
  exact utf8_b2c_scan_c2b s k h

theorem decode_at_c2b (s : List Nat) (hs : scan_complete s = true) :
    ∀ k, k < utf8_char_count s →
    (utf8_decode (s.drop (utf8_char_to_byte s k))).1 = (utf8_chars s).getD k 0 := by
  induction s using scan_complete.induct with
  | case1 => intro k h; rw [utf8_char_count] at h; omega
  | case2 first rest ih =>
    rw [scan_complete] at hs
    simp only [Bool.and_eq_true, decide_eq_true_eq] at hs
    obtain ⟨hle, hrec⟩ := hs
    intro k h
    match k with
    | 0 =>
      rw [utf8_char_to_byte, List.drop_zero, utf8_chars]
      simp
    | k + 1 =>
      rw [utf8_char_count] at h
      rw [utf8_char_to_byte, if_neg (by omega)]
      rw [← List.drop_drop]
      rw [utf8_chars, utf8_decode_snd_eq first rest hle]
      simp only [List.getD_cons_succ]
      exact ih hrec k (by omega)

/-! ## Cached weights versus recomputed totals -/

theorem node_byte_len_eq (n : Node) (h : weights_ok n = true) :
    node_byte_len n = n.toList.length := by
  induction n with
  | leaf d c => rfl
  | branch c bw cw nw l r ihl ihr =>
    rw [weights_ok] at h
    simp only [Bool.and_eq_true, beq_iff_eq] at h
    obtain ⟨⟨⟨⟨hbw, hcw⟩, hnw⟩, hl⟩, hr⟩ := h
    rw [node_byte_len, Node.toList, List.length_append, hbw, ihr hr]

theorem node_char_len_eq (n : Node) (h : weights_ok n = true) :
    node_char_len n = leaf_char_sum n := by
  induction n with
  | leaf d c => rfl
  | branch c bw cw nw l r ihl ihr =>
    rw [weights_ok] at h
    simp only [Bool.and_eq_true, beq_iff_eq] at h
    obtain ⟨⟨⟨⟨hbw, hcw⟩, hnw⟩, hl⟩, hr⟩ := h
    rw [node_char_len, leaf_char_sum, hcw, ihr hr]

theorem node_newline_count_eq (n : Node) (h : weights_ok n = true) :
    node_newline_count n = leaf_newline_sum n := by
  induction n with
  | leaf d c => rfl
  | branch c bw cw nw l r ihl ihr =>
    rw [weights_ok] at h
    simp only [Bool.and_eq_true, beq_iff_eq] at h
    obtain ⟨⟨⟨⟨hbw, hcw⟩, hnw⟩, hl⟩, hr⟩ := h
    rw [node_newline_count, leaf_newline_sum, hnw, ihr hr]

theorem leaf_newline_sum_toList (n : Node) :
    leaf_newline_sum n = count_newlines n.toList := by
  induction n with
  | leaf d c => rfl
  | branch c bw cw nw l r ihl ihr =>
    rw [leaf_newline_sum, Node.toList, count_newlines_append, ihl, ihr]

theorem scan_complete_of_leaves (n : Node) (h : leaves_complete n = true) :
    scan_complete n.toList = true := by
  induction n with
  | leaf d c => exact h
  | branch c bw cw nw l r ihl ihr =>
    rw [leaves_complete, Bool.and_eq_true] at h
    exact scan_complete_append _ _ (ihl h.1) (ihr h.2)

theorem leaf_char_sum_toList (n : Node) (h : leaves_complete n = true) :
    leaf_char_sum n = utf8_char_count n.toList := by
  induction n with
  | leaf d c => rfl
  | branch c bw cw nw l r ihl ihr =>
    rw [leaves_complete, Bool.and_eq_true] at h
    rw [leaf_char_sum, Node.toList,
        utf8_char_count_append _ _ (scan_complete_of_leaves l h.1), ihl h.1, ihr h.2]

/-! ## `setColor`, rotations, `flip_colors`, `balance`: structure preservation -/

theorem setColor_toList (n : Node) (c : Color) : (n.setColor c).toList = n.toList := by
  cases n <;> rfl

theorem setColor_wok (n : Node) (c : Color) :
    weights_ok (n.setColor c) = weights_ok n := by
  cases n <;> rfl

theorem setColor_char_sum (n : Node) (c : Color) :
    leaf_char_sum (n.setColor c) = leaf_char_sum n := by
  cases n <;> rfl

theorem setColor_leaves_complete (n : Node) (c : Color) :
    leaves_complete (n.setColor c) = leaves_complete n := by
  cases n <;> rfl

theorem node_new_branch_wok (l r : Node) (hl : weights_ok l = true)
    (hr : weights_ok r = true) : weights_ok (node_new_branch l r) = true := by
  rw [node_new_branch, weights_ok]
  simp only [Bool.and_eq_true, beq_iff_eq]
  exact ⟨⟨⟨⟨node_byte_len_eq l hl, node_char_len_eq l hl⟩,
    node_newline_count_eq l hl⟩, hl⟩, hr⟩

theorem node_update_weights_toList (n : Node) :
    (node_update_weights n).toList = n.toList := by
  cases n <;> rfl

theorem node_update_weights_char_sum (n : Node) :
    leaf_char_sum (node_update_weights n) = leaf_char_sum n := by
  cases n <;> rfl

theorem node_update_weights_wok (n : Node) (h : weights_ok n = true) :
    weights_ok (node_update_weights n) = true := by
  match n with
  | Node.leaf d c => exact h
  | Node.branch c bw cw nw l r =>
    rw [weights_ok] at h
    simp only [Bool.and_eq_true, beq_iff_eq] at h
    obtain ⟨⟨⟨⟨hbw, hcw⟩, hnw⟩, hl⟩, hr⟩ := h
    rw [node_update_weights, weights_ok]
    simp only [Bool.and_eq_true, beq_iff_eq]
    exact ⟨⟨⟨⟨node_byte_len_eq l hl, node_char_len_eq l hl⟩,
      node_newline_count_eq l hl⟩, hl⟩, hr⟩

theorem rotate_left_toList (n : Node) : (rotate_left n).toList = n.toList := by
  match n with
  | Node.leaf d c => rfl
  | Node.branch c bw cw nw l (Node.leaf rd rc) => rfl
  | Node.branch c bw cw nw l (Node.branch rc rbw rcw rnw rl rr) =>
    simp [rotate_left, Node.toList, List.append_assoc]

theorem rotate_left_char_sum (n : Node) :
    leaf_char_sum (rotate_left n) = leaf_char_sum n := by
  match n with
  | Node.leaf d c => rfl
  | Node.branch c bw cw nw l (Node.leaf rd rc) => rfl
  | Node.branch c bw cw nw l (Node.branch rc rbw rcw rnw rl rr) =>
    simp only [rotate_left, leaf_char_sum]
    omega

theorem rotate_left_wok (n : Node) (h : weights_ok n = true) :
    weights_ok (rotate_left n) = true := by
  match n with
  | Node.leaf d c => exact h
  | Node.branch c bw cw nw l (Node.leaf rd rc) => exact h
  | Node.branch c bw cw nw l (Node.branch rc rbw rcw rnw rl rr) =>
    rw [weights_ok] at h
    simp only [Bool.and_eq_true, beq_iff_eq] at h
    obtain ⟨⟨⟨⟨hbw, hcw⟩, hnw⟩, hl⟩, hr⟩ := h
    rw [weights_ok] at hr
    simp only [Bool.and_eq_true, beq_iff_eq] at hr
    obtain ⟨⟨⟨⟨hrbw, hrcw⟩, hrnw⟩, hrl⟩, hrr⟩ := hr
    rw [rotate_left]
    have hmid : weights_ok (Node.branch Color.red (node_byte_len l) (node_char_len l)
        (node_newline_count l) l rl) = true := by
      rw [weights_ok]
      simp only [Bool.and_eq_true, beq_iff_eq]
      exact ⟨⟨⟨⟨node_byte_len_eq l hl, node_char_len_eq l hl⟩,
        node_newline_count_eq l hl⟩, hl⟩, hrl⟩
    rw [weights_ok]
    simp only [Bool.and_eq_true, beq_iff_eq]
    refine ⟨⟨⟨⟨?_, ?_⟩, ?_⟩, hmid⟩, hrr⟩
    · exact node_byte_len_eq _ hmid
    · exact node_char_len_eq _ hmid
    · exact node_newline_count_eq _ hmid

theorem rotate_right_toList (n : Node) : (rotate_right n).toList = n.toList := by
  match n with
  | Node.leaf d c => rfl
  | Node.branch c bw cw nw (Node.leaf ld lc) r => rfl
  | Node.branch c bw cw nw (Node.branch lc lbw lcw lnw ll lr) r =>
    simp [rotate_right, Node.toList, List.append_assoc]

theorem rotate_right_char_sum (n : Node) :
    leaf_char_sum (rotate_right n) = leaf_char_sum n := by
  match n with
  | Node.leaf d c => rfl
  | Node.branch c bw cw nw (Node.leaf ld lc) r => rfl
  | Node.branch c bw cw nw (Node.branch lc lbw lcw lnw ll lr) r =>
    simp only [rotate_right, leaf_char_sum]
    omega

theorem rotate_right_wok (n : Node) (h : weights_ok n = true) :
    weights_ok (rotate_right n) = true := by
  match n with
  | Node.leaf d c => exact h
  | Node.branch c bw cw nw (Node.leaf ld lc) r => exact h
  | Node.branch c bw cw nw (Node.branch lc lbw lcw lnw ll lr) r =>
    rw [weights_ok] at h
    simp only [Bool.and_eq_true, beq_iff_eq] at h
    obtain ⟨⟨⟨⟨hbw, hcw⟩, hnw⟩, hl⟩, hr⟩ := h
    rw [weights_ok] at hl
    simp only [Bool.and_eq_true, beq_iff_eq] at hl
    obtain ⟨⟨⟨⟨hlbw, hlcw⟩, hlnw⟩, hll⟩, hlr⟩ := hl
    rw [rotate_right]
    have hmid : weights_ok (Node.branch Color.red (node_byte_len lr) (node_char_len lr)
        (node_newline_count lr) lr r) = true := by
      rw [weights_ok]
      simp only [Bool.and_eq_true, beq_iff_eq]
      exact ⟨⟨⟨⟨node_byte_len_eq lr hlr, node_char_len_eq lr hlr⟩,
        node_newline_count_eq lr hlr⟩, hlr⟩, hr⟩
    rw [weights_ok]
    simp only [Bool.and_eq_true, beq_iff_eq]
    exact ⟨⟨⟨⟨node_byte_len_eq ll hll, node_char_len_eq ll hll⟩,
      node_newline_count_eq ll hll⟩, hll⟩, hmid⟩

theorem flip_colors_toList (n : Node) : (flip_colors n).toList = n.toList := by
  cases n with
  | leaf d c => rfl
  | branch c bw cw nw l r => simp [flip_colors, Node.toList, setColor_toList]

theorem flip_colors_char_sum (n : Node) :
    leaf_char_sum (flip_colors n) = leaf_char_sum n := by
  cases n with
  | leaf d c => rfl
  | branch c bw cw nw l r => simp [flip_colors, leaf_char_sum, setColor_char_sum]

theorem flip_colors_wok (n : Node) (h : weights_ok n = true) :
    weights_ok (flip_colors n) = true := by
  cases n with
  | leaf d c => exact h
  | branch c bw cw nw l r =>
    rw [weights_ok] at h
    simp only [Bool.and_eq_true, beq_iff_eq] at h
    obtain ⟨⟨⟨⟨hbw, hcw⟩, hnw⟩, hl⟩, hr⟩ := h
    rw [flip_colors, weights_ok]
    simp only [Bool.and_eq_true, beq_iff_eq, setColor_toList, setColor_char_sum,
      setColor_wok]
    refine ⟨⟨⟨⟨hbw, hcw⟩, ?_⟩, hl⟩, hr⟩
    have : leaf_newline_sum (l.setColor Color.black) = leaf_newline_sum l := by
      cases l <;> rfl
    rw [this]
    exact hnw

theorem balance_toList (n : Node) : (balance n).toList = n.toList := by
  match n with
  | Node.leaf d c => rfl
  | Node.branch c bw cw nw l r =>
    rw [balance]
    split <;> split <;> split <;>
      simp [rotate_left_toList, rotate_right_toList, flip_colors_toList]

theorem balance_char_sum (n : Node) :
    leaf_char_sum (balance n) = leaf_char_sum n := by
  match n with
  | Node.leaf d c => rfl
  | Node.branch c bw cw nw l r =>
    rw [balance]
    split <;> split <;> split <;>
      simp [rotate_left_char_sum, rotate_right_char_sum, flip_colors_char_sum]

theorem balance_wok (n : Node) (h : weights_ok n = true) :
    weights_ok (balance n) = true := by
  match n with
  | Node.leaf d c => exact h
  | Node.branch c bw cw nw l r =>
    rw [balance]
    split <;> split <;> split <;>
      first
      | exact h
      | exact rotate_left_wok _ h
      | exact rotate_right_wok _ h
      | exact rotate_right_wok _ (rotate_left_wok _ h)
      | exact flip_colors_wok _ h
      | exact flip_colors_wok _ (rotate_left_wok _ h)
      | exact flip_colors_wok _ (rotate_right_wok _ h)
      | exact flip_colors_wok _ (rotate_right_wok _ (rotate_left_wok _ h))

/-! ## Tree walks: positional queries against the flat content -/

theorem node_char_to_byte_lt (n : Node) (h : weights_ok n = true) :
    ∀ k, k < leaf_char_sum n → node_char_to_byte n k < n.toList.length := by
  induction n with
  | leaf d c => intro k hk; exact utf8_char_to_byte_lt d k hk
  | branch c bw cw nw l r ihl ihr =>
    rw [weights_ok] at h
    simp only [Bool.and_eq_true, beq_iff_eq] at h
    obtain ⟨⟨⟨⟨hbw, hcw⟩, hnw⟩, hl⟩, hr⟩ := h
    intro k hk
    rw [leaf_char_sum] at hk
    rw [node_char_to_byte, Node.toList, List.length_append]
    by_cases hkc : k < cw
    · rw [if_pos hkc]
      have := ihl hl k (by omega)
      omega
    · rw [if_neg hkc]
      have := ihr hr (k - cw) (by omega)
      omega

theorem node_b2c_c2b (n : Node) (h : weights_ok n = true) :
    ∀ k, k < leaf_char_sum n →
    node_byte_to_char n (node_char_to_byte n k) = k := by
  induction n with
  | leaf d c => intro k hk; exact utf8_byte_to_char_c2b d k hk
  | branch c bw cw nw l r ihl ihr =>
    have hwok : weights_ok (Node.branch c bw cw nw l r) = true := h
    rw [weights_ok] at h
    simp only [Bool.and_eq_true, beq_iff_eq] at h
    obtain ⟨⟨⟨⟨hbw, hcw⟩, hnw⟩, hl⟩, hr⟩ := h
    intro k hk
    rw [leaf_char_sum] at hk
    rw [node_char_to_byte]
    by_cases hkc : k < cw
    · rw [if_pos hkc, node_byte_to_char]
      have hlt := node_char_to_byte_lt l hl k (by omega)
      rw [if_pos (by omega)]
      exact ihl hl k (by omega)
    · rw [if_neg hkc, node_byte_to_char]
      rw [if_neg (by omega)]
      have : bw + node_char_to_byte r (k - cw) - bw = node_char_to_byte r (k - cw) := by
        omega
      rw [this, ihr hr (k - cw) (by omega)]
      omega

theorem node_byte_decode_c2b (n : Node) (hw : weights_ok n = true)
    (hc : leaves_complete n = true) :
    ∀ k, k < leaf_char_sum n →
    node_byte_decode n (node_char_to_byte n k) = (utf8_chars n.toList).getD k 0 := by
  induction n with
  | leaf d c =>
    intro k hk
    rw [node_char_to_byte, node_byte_decode,
        if_pos (utf8_char_to_byte_lt d k hk)]
    exact decode_at_c2b d hc k hk
  | branch c bw cw nw l r ihl ihr =>
    rw [weights_ok] at hw
    simp only [Bool.and_eq_true, beq_iff_eq] at hw
    obtain ⟨⟨⟨⟨hbw, hcw⟩, hnw⟩, hl⟩, hr⟩ := hw
    rw [leaves_complete, Bool.and_eq_true] at hc
    intro k hk
    rw [leaf_char_sum] at hk
    have hlen : (utf8_chars l.toList).length = leaf_char_sum l := by
      rw [utf8_chars_length _ (scan_complete_of_leaves l hc.1),
          leaf_char_sum_toList l hc.1]
    rw [node_char_to_byte, Node.toList,
        utf8_chars_append _ _ (scan_complete_of_leaves l hc.1)]
    by_cases hkc : k < cw
    · rw [if_pos hkc, node_byte_decode]
      have hlt := node_char_to_byte_lt l hl k (by omega)
      rw [if_pos (by omega)]
      rw [List.getD_append _ _ _ _ (by omega)]
      exact ihl hl hc.1 k (by omega)
    · rw [if_neg hkc, node_byte_decode]
      rw [if_neg (by omega)]
      have harg : bw + node_char_to_byte r (k - cw) - bw = node_char_to_byte r (k - cw) := by
        omega
      rw [harg, List.getD_append_right _ _ _ _ (by omega)]
      rw [ihr hr hc.2 (k - cw) (by omega), hlen, hcw]

/-! ## Insertion preserves structure and metrics -/

theorem node_new_branch_toList (l r : Node) :
    (node_new_branch l r).toList = l.toList ++ r.toList := rfl

theorem node_new_branch_char_sum (l r : Node) :
    leaf_char_sum (node_new_branch l r) = leaf_char_sum l + leaf_char_sum r := rfl

theorem node_update_weights_wok_children (c : Color) (bw cw nw : Nat) (l r : Node)
    (hl : weights_ok l = true) (hr : weights_ok r = true) :
    weights_ok (node_update_weights (Node.branch c bw cw nw l r)) = true := by
  rw [node_update_weights, weights_ok]
  simp only [Bool.and_eq_true, beq_iff_eq]
  exact ⟨⟨⟨⟨node_byte_len_eq l hl, node_char_len_eq l hl⟩,
    node_newline_count_eq l hl⟩, hl⟩, hr⟩

theorem node_insert_bytes_wok (n : Node) (h : weights_ok n = true) :
    ∀ bp s, weights_ok (node_insert_bytes n bp s) = true := by
  induction n with
  | leaf d c =>
    intro bp s
    rw [node_insert_bytes]
    by_cases h0 : bp == 0
    · rw [if_pos h0]
      exact balance_wok _ (node_new_branch_wok _ _ rfl rfl)
    · rw [if_neg h0]
      by_cases h1 : bp ≥ d.length
      · rw [if_pos h1]
        exact balance_wok _ (node_new_branch_wok _ _ rfl rfl)
      · rw [if_neg h1]
        exact balance_wok _ (node_new_branch_wok _ _ (node_new_branch_wok _ _ rfl rfl) rfl)
  | branch c bw cw nw l r ihl ihr =>
    rw [weights_ok] at h
    simp only [Bool.and_eq_true, beq_iff_eq] at h
    obtain ⟨⟨⟨⟨hbw, hcw⟩, hnw⟩, hl⟩, hr⟩ := h
    intro bp s
    rw [node_insert_bytes]
    by_cases hif : bp ≤ bw
    · rw [if_pos hif]
      exact balance_wok _ (node_update_weights_wok_children _ _ _ _ _ _ (ihl hl bp s) hr)
    · rw [if_neg hif]
      exact balance_wok _ (node_update_weights_wok_children _ _ _ _ _ _ hl (ihr hr _ s))

theorem node_insert_bytes_length (n : Node) :
    ∀ bp s, (node_insert_bytes n bp s).toList.length = n.toList.length + s.length := by
  induction n with
  | leaf d c =>
    intro bp s
    rw [node_insert_bytes]
    by_cases h0 : bp == 0
    · rw [if_pos h0, balance_toList, node_new_branch_toList]
      simp [Node.toList, node_new_leaf]
      omega
    · rw [if_neg h0]
      by_cases h1 : bp ≥ d.length
      · rw [if_pos h1, balance_toList, node_new_branch_toList]
        simp [Node.toList, node_new_leaf]
      · rw [if_neg h1, balance_toList, node_new_branch_toList, node_new_branch_toList]
        simp only [Node.toList, node_new_leaf, List.length_append, List.length_take,
          List.length_drop]
        omega
  | branch c bw cw nw l r ihl ihr =>
    intro bp s
    rw [node_insert_bytes]
    by_cases hif : bp ≤ bw
    · rw [if_pos hif, balance_toList, node_update_weights_toList]
      simp only [Node.toList, List.length_append, ihl bp s]
      omega
    · rw [if_neg hif, balance_toList, node_update_weights_toList]
      simp only [Node.toList, List.length_append, ihr (bp - bw) s]
      omega

theorem node_insert_bytes_newlines (n : Node) :
    ∀ bp s, count_newlines (node_insert_bytes n bp s).toList
      = count_newlines n.toList + count_newlines s := by
  induction n with
  | leaf d c =>
    intro bp s
    have htd : count_newlines (d.take bp) + count_newlines (d.drop bp)
        = count_newlines d := by
      rw [← count_newlines_append, List.take_append_drop]
    rw [node_insert_bytes]
    by_cases h0 : bp == 0
    · rw [if_pos h0, balance_toList, node_new_branch_toList]
      simp only [Node.toList, node_new_leaf, count_newlines_append]
      omega
    · rw [if_neg h0]
      by_cases h1 : bp ≥ d.length
      · rw [if_pos h1, balance_toList, node_new_branch_toList]
        simp [Node.toList, node_new_leaf, count_newlines_append]
      · rw [if_neg h1, balance_toList, node_new_branch_toList, node_new_branch_toList]
        simp only [Node.toList, node_new_leaf, count_newlines_append]
        omega
  | branch c bw cw nw l r ihl ihr =>
    intro bp s
    rw [node_insert_bytes]
    by_cases hif : bp ≤ bw
    · rw [if_pos hif, balance_toList, node_update_weights_toList]
      simp only [Node.toList, count_newlines_append, ihl bp s]
      omega
    · rw [if_neg hif, balance_toList, node_update_weights_toList]
      simp only [Node.toList, count_newlines_append, ihr (bp - bw) s]
      omega

theorem node_insert_bytes_char_sum (n : Node) :
    ∀ bp s, insert_ok n bp = true →
    leaf_char_sum (node_insert_bytes n bp s) = leaf_char_sum n + utf8_char_count s := by
  induction n with
  | leaf d c =>
    intro bp s hok
    rw [insert_ok] at hok
    simp only [Bool.or_eq_true, beq_iff_eq, decide_eq_true_eq] at hok
    rw [node_insert_bytes]
    by_cases h0 : bp == 0
    · rw [if_pos h0, balance_char_sum, node_new_branch_char_sum]
      simp [leaf_char_sum, node_new_leaf]
      omega
    · rw [if_neg h0]
      by_cases h1 : bp ≥ d.length
      · rw [if_pos h1, balance_char_sum, node_new_branch_char_sum]
        simp [leaf_char_sum, node_new_leaf]
      · rw [if_neg h1, balance_char_sum, node_new_branch_char_sum,
            node_new_branch_char_sum]
        simp only [leaf_char_sum, node_new_leaf]
        have hadd : utf8_char_count (d.take bp) + utf8_char_count (d.drop bp)
            = utf8_char_count d := by
          rcases hok with (h | h) | h
          · exact absurd (by simpa using h) h0
          · omega
          · exact h
        omega
  | branch c bw cw nw l r ihl ihr =>
    intro bp s hok
    rw [insert_ok] at hok
    rw [node_insert_bytes]
    by_cases hif : bp ≤ bw
    · rw [if_pos hif] at hok
      rw [if_pos hif, balance_char_sum, node_update_weights_char_sum]
      simp only [leaf_char_sum, ihl bp s hok]
      omega
    · rw [if_neg hif] at hok
      rw [if_neg hif, balance_char_sum, node_update_weights_char_sum]
      simp only [leaf_char_sum, ihr (bp - bw) s hok]
      omega

/-! ## Split preserves content and weight consistency -/

theorem setColor_newline_sum (n : Node) (c : Color) :
    leaf_newline_sum (n.setColor c) = leaf_newline_sum n := by
  cases n <;> rfl

theorem setColor_nodeColor (n : Node) (c : Color) :
    (n.setColor c).nodeColor = c := by
  cases n <;> rfl

theorem node_split_recursive_toList (n : Node) :
    ∀ bp, optToList (node_split_recursive n bp).1 ++
      optToList (node_split_recursive n bp).2 = n.toList := by
  induction n with
  | leaf d c =>
    intro bp
    rw [node_split_recursive, split_leaf]
    by_cases h0 : bp == 0
    · rw [if_pos h0]
      simp [optToList, Node.toList]
    · rw [if_neg h0]
      by_cases h1 : bp ≥ d.length
      · rw [if_pos h1]
        simp [optToList, Node.toList]
      · rw [if_neg h1]
        simp [optToList, setColor_toList, node_new_leaf, Node.toList]
  | branch c bw cw nw l r ihl ihr =>
    intro bp
    rw [node_split_recursive]
    by_cases hif : bp ≤ bw
    · rw [if_pos hif]
      rcases hsp : node_split_recursive l bp with ⟨ll, lr⟩
      have hrec := ihl bp
      rw [hsp] at hrec
      cases lr with
      | some lr' =>
        simp only [optToList, setColor_toList, node_new_branch_toList, Node.toList]
        simp only [optToList] at hrec
        rw [← List.append_assoc, hrec]
      | none =>
        simp only [optToList] at hrec ⊢
        rw [List.append_nil] at hrec
        rw [Node.toList, hrec]
    · rw [if_neg hif]
      rcases hsp : node_split_recursive r (bp - bw) with ⟨rl, rr⟩
      have hrec := ihr (bp - bw)
      rw [hsp] at hrec
      cases rl with
      | some rl' =>
        simp only [optToList, setColor_toList, node_new_branch_toList, Node.toList]
        simp only [optToList] at hrec
        rw [List.append_assoc, hrec]
      | none =>
        simp only [optToList] at hrec ⊢
        rw [List.nil_append] at hrec
        rw [Node.toList, hrec]

theorem node_split_recursive_wok (n : Node) (h : weights_ok n = true) :
    ∀ bp, weights_ok_o (node_split_recursive n bp).1 = true ∧
      weights_ok_o (node_split_recursive n bp).2 = true := by
  induction n with
  | leaf d c =>
    intro bp
    rw [node_split_recursive, split_leaf]
    by_cases h0 : bp == 0
    · rw [if_pos h0]
      exact ⟨rfl, rfl⟩
    · rw [if_neg h0]
      by_cases h1 : bp ≥ d.length
      · rw [if_pos h1]
        exact ⟨rfl, rfl⟩
      · rw [if_neg h1]
        exact ⟨rfl, rfl⟩
  | branch c bw cw nw l r ihl ihr =>
    rw [weights_ok] at h
    simp only [Bool.and_eq_true, beq_iff_eq] at h
    obtain ⟨⟨⟨⟨hbw, hcw⟩, hnw⟩, hl⟩, hr⟩ := h
    intro bp
    rw [node_split_recursive]
    by_cases hif : bp ≤ bw
    · rw [if_pos hif]
      rcases hsp : node_split_recursive l bp with ⟨ll, lr⟩
      have hrec := ihl hl bp
      rw [hsp] at hrec
      cases lr with
      | some lr' =>
        refine ⟨hrec.1, ?_⟩
        simp only [weights_ok_o] at hrec ⊢
        rw [setColor_wok]
        exact node_new_branch_wok _ _ hrec.2 hr
      | none =>
        exact ⟨hrec.1, hr⟩
    · rw [if_neg hif]
      rcases hsp : node_split_recursive r (bp - bw) with ⟨rl, rr⟩
      have hrec := ihr hr (bp - bw)
      rw [hsp] at hrec
      cases rl with
      | some rl' =>
        refine ⟨?_, hrec.2⟩
        simp only [weights_ok_o] at hrec ⊢
        rw [setColor_wok]
        exact node_new_branch_wok _ _ hl hrec.1
      | none =>
        exact ⟨hl, hrec.2⟩

/-! ## Rope-level well-formedness preservation -/

theorem rope_new_wf : rope_new.wf = true := rfl

theorem Rope.wf_swf (r : Rope) (h : r.wf = true) : r.swf = true := by
  obtain ⟨root, bl, cl, nl⟩ := r
  cases root with
  | none =>
    simp only [Rope.wf, Bool.and_eq_true] at h
    simpa [Rope.swf] using h.1.1
  | some n =>
    simp only [Rope.wf, Bool.and_eq_true] at h
    simp only [Rope.swf, Bool.and_eq_true]
    exact ⟨h.1.1.1, h.1.1.2⟩

theorem rope_new_from_str_wf (s : List Nat) : (rope_new_from_str s).wf = true := by
  rw [rope_new_from_str]
  by_cases h : s.length > 0
  · rw [if_pos h]
    simp [Rope.wf, node_new_leaf, Node.setColor, weights_ok, Node.toList,
      leaf_char_sum, leaf_newline_sum]
  · rw [if_neg h]
    exact rope_new_wf

theorem rope_to_string_eq (r : Rope) (h : r.swf = true) :
    rope_to_string (some r) = optToList r.root := by
  obtain ⟨root, bl, cl, nl⟩ := r
  cases root with
  | none => simp [rope_to_string, optToList]
  | some n =>
    simp only [Rope.swf, Bool.and_eq_true, beq_iff_eq] at h
    rw [rope_to_string]
    by_cases hz : bl == 0
    · rw [if_pos hz]
      simp only [beq_iff_eq] at hz
      have : n.toList.length = 0 := by omega
      simp only [optToList]
      exact (List.eq_nil_of_length_eq_zero this).symm
    · rw [if_neg hz]
      rfl

theorem rope_of_tree_wf (t : Option Node) (h : weights_ok_o t = true) :
    (rope_of_tree t).wf = true := by
  cases t with
  | none => exact rope_new_wf
  | some n =>
    simp only [weights_ok_o] at h
    simp only [rope_of_tree, Rope.wf, Bool.and_eq_true, beq_iff_eq]
    refine ⟨⟨⟨?_, ?_⟩, ?_⟩, ?_⟩
    · rw [setColor_wok]; exact h
    · rw [setColor_toList]; exact node_byte_len_eq n h
    · rw [setColor_char_sum]; exact node_char_len_eq n h
    · rw [setColor_newline_sum]; exact node_newline_count_eq n h

theorem rope_concat_wf (l r : Rope) (hl : l.wf = true) (hr : r.wf = true) :
    (rope_concat l r).wf = true := by
  rw [rope_concat]
  by_cases hlz : l.byte_len == 0
  · rw [if_pos hlz]; exact hr
  · rw [if_neg hlz]
    by_cases hrz : r.byte_len == 0
    · rw [if_pos hrz]; exact hl
    · rw [if_neg hrz]
      obtain ⟨lroot, lbl, lcl, lnl⟩ := l
      obtain ⟨rroot, rbl, rcl, rnl⟩ := r
      simp only [beq_iff_eq] at hlz hrz
      cases lroot with
      | none =>
        simp only [Rope.wf, Bool.and_eq_true, beq_iff_eq] at hl
        exact absurd hl.1.1 (by simpa using hlz)
      | some ln =>
        cases rroot with
        | none =>
          simp only [Rope.wf, Bool.and_eq_true, beq_iff_eq] at hr
          exact absurd hr.1.1 (by simpa using hrz)
        | some rn =>
          simp only [Rope.wf, Bool.and_eq_true, beq_iff_eq] at hl hr
          obtain ⟨⟨⟨hlw, hlb⟩, hlc⟩, hln⟩ := hl
          obtain ⟨⟨⟨hrw, hrb⟩, hrc⟩, hrn⟩ := hr
          simp only [Rope.wf, Bool.and_eq_true, beq_iff_eq]
          refine ⟨⟨⟨?_, ?_⟩, ?_⟩, ?_⟩
          · rw [setColor_wok]; exact node_new_branch_wok _ _ hlw hrw
          · rw [setColor_toList, node_new_branch_toList, List.length_append]; omega
          · rw [setColor_char_sum, node_new_branch_char_sum]; omega
          · rw [setColor_newline_sum, node_new_branch]
            simp only [leaf_newline_sum]
            omega

theorem rope_split_bytes_wf (r : Rope) (h : r.wf = true) (bp : Nat) :
    (rope_split_bytes r bp).1.wf = true ∧ (rope_split_bytes r bp).2.wf = true := by
  rw [rope_split_bytes]
  by_cases h0 : bp == 0
  · rw [if_pos h0]; exact ⟨rope_new_wf, h⟩
  · rw [if_neg h0]
    by_cases h1 : bp ≥ r.byte_len
    · rw [if_pos h1]; exact ⟨h, rope_new_wf⟩
    · rw [if_neg h1]
      cases hroot : r.root with
      | none => exact ⟨rope_new_wf, rope_new_wf⟩
      | some n =>
        have hwok : weights_ok n = true := by
          obtain ⟨root, bl, cl, nl⟩ := r
          cases root with
          | none => simp at hroot
          | some m =>
            obtain rfl : m = n := by simpa using hroot
            simp only [Rope.wf, Bool.and_eq_true, beq_iff_eq] at h
            exact h.1.1.1
        have hsw := node_split_recursive_wok n hwok bp
        rcases hsp : node_split_recursive n bp with ⟨lt, rt⟩
        rw [hsp] at hsw
        simp only [hsp]
        exact ⟨rope_of_tree_wf lt hsw.1, rope_of_tree_wf rt hsw.2⟩

theorem rope_insert_bytes_wf (r : Rope) (h : r.wf = true) (bp : Nat) (s : List Nat)
    (hok : r.insert_ok_at bp = true) : (rope_insert_bytes r bp s).wf = true := by
  rw [rope_insert_bytes]
  by_cases hz : s.length == 0
  · rw [if_pos hz]; exact h
  · rw [if_neg hz]
    obtain ⟨root, bl, cl, nl⟩ := r
    cases root with
    | none =>
      simp only [Rope.wf, Bool.and_eq_true, beq_iff_eq] at h
      obtain ⟨⟨hb, hc⟩, hn⟩ := h
      simp only [Rope.wf, Bool.and_eq_true, beq_iff_eq, node_new_leaf, Node.setColor,
        weights_ok, Node.toList, leaf_char_sum, leaf_newline_sum]
      refine ⟨⟨⟨trivial, ?_⟩, ?_⟩, ?_⟩ <;> omega
    | some n =>
      simp only [Rope.wf, Bool.and_eq_true, beq_iff_eq] at h
      obtain ⟨⟨⟨hw, hb⟩, hc⟩, hn⟩ := h
      simp only [Rope.insert_ok_at] at hok
      simp only [Rope.wf, Bool.and_eq_true, beq_iff_eq]
      refine ⟨⟨⟨?_, ?_⟩, ?_⟩, ?_⟩
      · rw [setColor_wok]
        exact node_insert_bytes_wok n hw _ s
      · rw [setColor_toList, node_insert_bytes_length]
        omega
      · rw [setColor_char_sum, node_insert_bytes_char_sum n _ s hok]
        omega
      · rw [setColor_newline_sum, leaf_newline_sum_toList, node_insert_bytes_newlines]
        rw [leaf_newline_sum_toList] at hn
        omega

theorem rope_delete_bytes_wf (r : Rope) (h : r.wf = true) (a n : Nat) :
    (rope_delete_bytes r a n).wf = true := by
  rw [rope_delete_bytes]
  by_cases h0 : a ≥ r.byte_len
  · rw [if_pos h0]; exact h
  · rw [if_neg h0]
    by_cases h1 : (if a + n > r.byte_len then r.byte_len - a else n) == 0
    · rw [if_pos h1]; exact h
    · rw [if_neg h1]
      have hs1 := rope_split_bytes_wf r h a
      rcases hsp1 : rope_split_bytes r a with ⟨left, right⟩
      rw [hsp1] at hs1
      have hs2 := rope_split_bytes_wf right hs1.2
        (if a + n > r.byte_len then r.byte_len - a else n)
      rcases hsp2 : rope_split_bytes right
          (if a + n > r.byte_len then r.byte_len - a else n) with ⟨mid, rightmost⟩
      rw [hsp2] at hs2
      simp only [hsp1, hsp2]
      exact rope_concat_wf left rightmost hs1.1 hs2.2

/-! ## Structural well-formedness holds after every operation sequence -/

theorem rope_insert_bytes_swf (r : Rope) (h : r.swf = true) (bp : Nat)
    (s : List Nat) : (rope_insert_bytes r bp s).swf = true := by
  rw [rope_insert_bytes]
  by_cases hz : s.length == 0
  · rw [if_pos hz]; exact h
  · rw [if_neg hz]
    obtain ⟨root, bl, cl, nl⟩ := r
    cases root with
    | none =>
      simp only [Rope.swf, beq_iff_eq] at h
      simp only [Rope.swf, Bool.and_eq_true, beq_iff_eq, node_new_leaf,
        Node.setColor, weights_ok, Node.toList]
      exact ⟨by trivial, by omega⟩
    | some n =>
      simp only [Rope.swf, Bool.and_eq_true, beq_iff_eq] at h
      obtain ⟨hw, hb⟩ := h
      simp only [Rope.swf, Bool.and_eq_true, beq_iff_eq]
      constructor
      · rw [setColor_wok]
        exact node_insert_bytes_wok n hw _ s
      · rw [setColor_toList, node_insert_bytes_length]
        omega

theorem rope_concat_swf (l r : Rope) (hl : l.swf = true) (hr : r.swf = true) :
    (rope_concat l r).swf = true := by
  rw [rope_concat]
  by_cases hlz : l.byte_len == 0
  · rw [if_pos hlz]; exact hr
  · rw [if_neg hlz]
    by_cases hrz : r.byte_len == 0
    · rw [if_pos hrz]; exact hl
    · rw [if_neg hrz]
      obtain ⟨lroot, lbl, lcl, lnl⟩ := l
      obtain ⟨rroot, rbl, rcl, rnl⟩ := r
      simp only [beq_iff_eq] at hlz hrz
      cases lroot with
      | none =>
        simp only [Rope.swf, beq_iff_eq] at hl
        exact absurd hl (by simpa using hlz)
      | some ln =>
        cases rroot with
        | none =>
          simp only [Rope.swf, beq_iff_eq] at hr
          exact absurd hr (by simpa using hrz)
        | some rn =>
          simp only [Rope.swf, Bool.and_eq_true, beq_iff_eq] at hl hr
          obtain ⟨hlw, hlb⟩ := hl
          obtain ⟨hrw, hrb⟩ := hr
          simp only [Rope.swf, Bool.and_eq_true, beq_iff_eq]
          constructor
          · rw [setColor_wok]; exact node_new_branch_wok _ _ hlw hrw
          · rw [setColor_toList, node_new_branch_toList, List.length_append]
            omega

theorem rope_split_bytes_swf (r : Rope) (h : r.swf = true) (bp : Nat) :
    (rope_split_bytes r bp).1.swf = true ∧ (rope_split_bytes r bp).2.swf = true := by
  rw [rope_split_bytes]
  by_cases h0 : bp == 0
  · rw [if_pos h0]; exact ⟨rfl, h⟩
  · rw [if_neg h0]
    by_cases h1 : bp ≥ r.byte_len
    · rw [if_pos h1]; exact ⟨h, rfl⟩
    · rw [if_neg h1]
      cases hroot : r.root with
      | none => exact ⟨rfl, rfl⟩
      | some n =>
        have hwok : weights_ok n = true := by
          obtain ⟨root, bl, cl, nl⟩ := r
          cases root with
          | none => simp at hroot
          | some m =>
            obtain rfl : m = n := by simpa using hroot
            simp only [Rope.swf, Bool.and_eq_true, beq_iff_eq] at h
            exact h.1
        have hsw := node_split_recursive_wok n hwok bp
        rcases hsp : node_split_recursive n bp with ⟨lt, rt⟩
        rw [hsp] at hsw
        simp only [hsp]
        exact ⟨Rope.wf_swf _ (rope_of_tree_wf lt hsw.1),
               Rope.wf_swf _ (rope_of_tree_wf rt hsw.2)⟩

theorem rope_delete_bytes_swf (r : Rope) (h : r.swf = true) (a n : Nat) :
    (rope_delete_bytes r a n).swf = true := by
  rw [rope_delete_bytes]
  by_cases h0 : a ≥ r.byte_len
  · rw [if_pos h0]; exact h
  · rw [if_neg h0]
    by_cases h1 : (if a + n > r.byte_len then r.byte_len - a else n) == 0
    · rw [if_pos h1]; exact h
    · rw [if_neg h1]
      have hs1 := rope_split_bytes_swf r h a
      rcases hsp1 : rope_split_bytes r a with ⟨left, right⟩
      rw [hsp1] at hs1
      have hs2 := rope_split_bytes_swf right hs1.2
        (if a + n > r.byte_len then r.byte_len - a else n)
      rcases hsp2 : rope_split_bytes right
          (if a + n > r.byte_len then r.byte_len - a else n) with ⟨mid, rightmost⟩
      rw [hsp2] at hs2
      simp only [hsp1, hsp2]
      exact rope_concat_swf left rightmost hs1.1 hs2.2

/-- After every sequence of the public byte-keyed operations — with no
boundary condition at all — the rope's cached branch weights are consistent
and its `byte_len` matches the leaves. -/
theorem prog_eval_swf (p : Prog) : p.eval.swf = true := by
  induction p with
  | fromStr s => exact Rope.wf_swf _ (rope_new_from_str_wf s)
  | insert p bp s ih => exact rope_insert_bytes_swf _ ih bp s
  | delete p a n ih => exact rope_delete_bytes_swf _ ih a n
  | splitL p bp ih => exact (rope_split_bytes_swf _ ih bp).1
  | splitR p bp ih => exact (rope_split_bytes_swf _ ih bp).2
  | concat p q ihp ihq => exact rope_concat_swf _ _ ihp ihq

/-! ## Content of `concat` and `split` -/

theorem rope_of_tree_to_string (t : Option Node) (h : weights_ok_o t = true) :
    rope_to_string (some (rope_of_tree t)) = optToList t := by
  rw [rope_to_string_eq _ (Rope.wf_swf _ (rope_of_tree_wf t h))]
  cases t with
  | none => rfl
  | some n => simp [rope_of_tree, setColor_toList, optToList]

theorem rope_concat_to_string (l r : Rope) (hl : l.swf = true) (hr : r.swf = true) :
    rope_to_string (some (rope_concat l r)) =
      rope_to_string (some l) ++ rope_to_string (some r) := by
  rw [rope_concat]
  by_cases hlz : l.byte_len == 0
  · rw [if_pos hlz]
    have hle : rope_to_string (some l) = [] := by
      rw [rope_to_string, if_pos hlz]
    rw [hle, List.nil_append]
  · rw [if_neg hlz]
    by_cases hrz : r.byte_len == 0
    · rw [if_pos hrz]
      have hre : rope_to_string (some r) = [] := by
        rw [rope_to_string, if_pos hrz]
      rw [hre, List.append_nil]
    · rw [if_neg hrz]
      obtain ⟨lroot, lbl, lcl, lnl⟩ := l
      obtain ⟨rroot, rbl, rcl, rnl⟩ := r
      simp only [beq_iff_eq] at hlz hrz
      cases lroot with
      | none =>
        simp only [Rope.swf, beq_iff_eq] at hl
        exact absurd hl (by simpa using hlz)
      | some ln =>
        cases rroot with
        | none =>
          simp only [Rope.swf, beq_iff_eq] at hr
          exact absurd hr (by simpa using hrz)
        | some rn =>
          simp only
          rw [rope_to_string, rope_to_string, rope_to_string]
          rw [if_neg (by simp only [beq_iff_eq]; simp; omega),
              if_neg (by simpa using hlz), if_neg (by simpa using hrz)]
          simp only [setColor_toList, node_new_branch_toList]

theorem split_concat_to_string (r : Rope) (h : r.swf = true) (bp : Nat) :
    rope_to_string (some (rope_concat (rope_split_bytes r bp).1
      (rope_split_bytes r bp).2)) = rope_to_string (some r) := by
  rw [rope_split_bytes]
  by_cases h0 : bp == 0
  · rw [if_pos h0]
    simp [rope_concat, rope_new]
  · rw [if_neg h0]
    by_cases h1 : bp ≥ r.byte_len
    · rw [if_pos h1]
      rw [rope_concat]
      by_cases hz : r.byte_len == 0
      · rw [if_pos hz]
        have : rope_to_string (some r) = [] := by rw [rope_to_string, if_pos hz]
        rw [this]
        rfl
      · rw [if_neg hz]
        simp [rope_new]
    · rw [if_neg h1]
      cases hroot : r.root with
      | none =>
        obtain ⟨root, bl, cl, nl⟩ := r
        simp only at hroot
        subst hroot
        simp only [Rope.swf, beq_iff_eq] at h
        simp only at h1
        omega
      | some n =>
        have hwok : weights_ok n = true := by
          obtain ⟨root, bl, cl, nl⟩ := r
          cases root with
          | none => simp at hroot
          | some m =>
            obtain rfl : m = n := by simpa using hroot
            simp only [Rope.swf, Bool.and_eq_true, beq_iff_eq] at h
            exact h.1
        have hsw := node_split_recursive_wok n hwok bp
        have hst := node_split_recursive_toList n bp
        rcases hsp : node_split_recursive n bp with ⟨lt, rt⟩
        rw [hsp] at hsw hst
        simp only [hsp]
        rw [rope_concat_to_string _ _
          (Rope.wf_swf _ (rope_of_tree_wf lt hsw.1))
          (Rope.wf_swf _ (rope_of_tree_wf rt hsw.2))]
        rw [rope_of_tree_to_string lt hsw.1, rope_of_tree_to_string rt hsw.2, hst]
        rw [rope_to_string, if_neg (by simp only [beq_iff_eq]; omega), hroot]

/-! ## The root is forced BLACK by every public mutation -/

theorem rope_new_root_black : rope_new.root_black = true := rfl

theorem rope_new_from_str_root_black (s : List Nat) :
    (rope_new_from_str s).root_black = true := by
  rw [rope_new_from_str]
  by_cases h : s.length > 0
  · rw [if_pos h]
    simp [Rope.root_black, setColor_nodeColor]
  · rw [if_neg h]
    rfl

theorem rope_of_tree_root_black (t : Option Node) :
    (rope_of_tree t).root_black = true := by
  cases t with
  | none => rfl
  | some n => simp [rope_of_tree, Rope.root_black, setColor_nodeColor]

theorem rope_insert_bytes_root_black (r : Rope) (h : r.root_black = true)
    (bp : Nat) (s : List Nat) : (rope_insert_bytes r bp s).root_black = true := by
  rw [rope_insert_bytes]
  by_cases hz : s.length == 0
  · rw [if_pos hz]; exact h
  · rw [if_neg hz]
    cases r.root <;> simp [Rope.root_black, setColor_nodeColor]

theorem rope_concat_root_black (l r : Rope) (hl : l.root_black = true)
    (hr : r.root_black = true) : (rope_concat l r).root_black = true := by
  rw [rope_concat]
  by_cases hlz : l.byte_len == 0
  · rw [if_pos hlz]; exact hr
  · rw [if_neg hlz]
    by_cases hrz : r.byte_len == 0
    · rw [if_pos hrz]; exact hl
    · rw [if_neg hrz]
      cases l.root <;> cases r.root <;>
        simp [Rope.root_black, rope_new, setColor_nodeColor]

theorem rope_split_bytes_root_black (r : Rope) (h : r.root_black = true) (bp : Nat) :
    (rope_split_bytes r bp).1.root_black = true ∧
    (rope_split_bytes r bp).2.root_black = true := by
  rw [rope_split_bytes]
  by_cases h0 : bp == 0
  · rw [if_pos h0]; exact ⟨rfl, h⟩
  · rw [if_neg h0]
    by_cases h1 : bp ≥ r.byte_len
    · rw [if_pos h1]; exact ⟨h, rfl⟩
    · rw [if_neg h1]
      cases r.root with
      | none => exact ⟨rfl, rfl⟩
      | some n =>
        rcases hsp : node_split_recursive n bp with ⟨lt, rt⟩
        simp only [hsp]
        exact ⟨rope_of_tree_root_black lt, rope_of_tree_root_black rt⟩

theorem rope_delete_bytes_root_black (r : Rope) (h : r.root_black = true)
    (a n : Nat) : (rope_delete_bytes r a n).root_black = true := by
  rw [rope_delete_bytes]
  by_cases h0 : a ≥ r.byte_len
  · rw [if_pos h0]; exact h
  · rw [if_neg h0]
    by_cases h1 : (if a + n > r.byte_len then r.byte_len - a else n) == 0
    · rw [if_pos h1]; exact h
    · rw [if_neg h1]
      have hs1 := rope_split_bytes_root_black r h a
      rcases hsp1 : rope_split_bytes r a with ⟨left, right⟩
      rw [hsp1] at hs1
      have hs2 := rope_split_bytes_root_black right hs1.2
        (if a + n > r.byte_len then r.byte_len - a else n)
      rcases hsp2 : rope_split_bytes right
          (if a + n > r.byte_len then r.byte_len - a else n) with ⟨mid, rightmost⟩
      rw [hsp2] at hs2
      simp only [hsp1, hsp2]
      exact rope_concat_root_black left rightmost hs1.1 hs2.2

/-! ## Invariants over whole operation sequences -/

theorem prog_eval_root_black (p : Prog) : p.eval.root_black = true := by
  induction p with
  | fromStr s => exact rope_new_from_str_root_black s
  | insert p bp s ih => exact rope_insert_bytes_root_black _ ih bp s
  | delete p a n ih => exact rope_delete_bytes_root_black _ ih a n
  | splitL p bp ih => exact (rope_split_bytes_root_black _ ih bp).1
  | splitR p bp ih => exact (rope_split_bytes_root_black _ ih bp).2
  | concat p q ihp ihq => exact rope_concat_root_black _ _ ihp ihq

theorem prog_eval_wf (p : Prog) (h : p.insertsAligned = true) : p.eval.wf = true := by
  induction p with
  | fromStr s => exact rope_new_from_str_wf s
  | insert p bp s ih =>
    rw [Prog.insertsAligned, Bool.and_eq_true] at h
    exact rope_insert_bytes_wf _ (ih h.1) bp s h.2
  | delete p a n ih =>
    rw [Prog.insertsAligned] at h
    exact rope_delete_bytes_wf _ (ih h) a n
  | splitL p bp ih =>
    rw [Prog.insertsAligned] at h
    exact (rope_split_bytes_wf _ (ih h) bp).1
  | splitR p bp ih =>
    rw [Prog.insertsAligned] at h
    exact (rope_split_bytes_wf _ (ih h) bp).2
  | concat p q ihp ihq =>
    rw [Prog.insertsAligned, Bool.and_eq_true] at h
    exact rope_concat_wf _ _ (ihp h.1) (ihq h.2)

/-! ## Rope-level positional query lemmas -/

theorem rope_b2c_c2b (r : Rope) (h : r.wf = true) (k : Nat) (hk : k ≤ r.char_len) :
    rope_byte_to_char (some r) (rope_char_to_byte (some r) k) = k := by
  by_cases hke : k ≥ r.char_len
  · have hkeq : k = r.char_len := by omega
    rw [rope_char_to_byte, if_pos hke, rope_byte_to_char, if_pos (le_refl _)]
    omega
  · rw [rope_char_to_byte, if_neg hke]
    obtain ⟨root, bl, cl, nl⟩ := r
    cases root with
    | none =>
      simp only [Rope.wf, Bool.and_eq_true, beq_iff_eq] at h
      simp only at hke
      omega
    | some n =>
      simp only [Rope.wf, Bool.and_eq_true, beq_iff_eq] at h
      obtain ⟨⟨⟨hw, hb⟩, hc⟩, hn⟩ := h
      simp only at hke ⊢
      have hlt := node_char_to_byte_lt n hw k (by omega)
      rw [rope_byte_to_char, if_neg (by simp only; omega)]
      exact node_b2c_c2b n hw k (by omega)

theorem rope_char_at_content (r : Rope) (hw : r.wf = true) (hc : r.complete = true)
    (p : Nat) (hp : p < r.char_len) :
    rope_char_at (some r) p = (utf8_chars (rope_to_string (some r))).getD p 0 := by
  obtain ⟨root, bl, cl, nl⟩ := r
  cases root with
  | none =>
    simp only [Rope.wf, Bool.and_eq_true, beq_iff_eq] at hw
    simp only at hp
    omega
  | some n =>
    simp only [Rope.wf, Bool.and_eq_true, beq_iff_eq] at hw
    obtain ⟨⟨⟨hwk, hb⟩, hcc⟩, hn⟩ := hw
    simp only [Rope.complete] at hc
    simp only at hp
    have hsum : cl = utf8_char_count n.toList := by
      rw [hcc, leaf_char_sum_toList n hc]
    rw [rope_char_at, if_neg (show ¬p ≥ cl by omega)]
    simp only [rope_char_to_byte, ge_iff_le]
    rw [if_neg (show ¬cl ≤ p by omega)]
    have hbz : ¬bl == 0 := by
      simp only [beq_iff_eq]
      intro habs
      rw [habs] at hb
      have : n.toList = [] := List.eq_nil_of_length_eq_zero hb.symm
      rw [this] at hsum
      simp [utf8_char_count] at hsum
      omega
    rw [rope_to_string, if_neg hbz]
    exact node_byte_decode_c2b n hwk hc p (by omega)

/-! ## The `rope_line_to_char` scanning loop against the character sequence -/

theorem line_to_char_spec_le (cs : List Nat) : ∀ k, line_to_char_spec cs k ≤ cs.length := by
  induction cs with
  | nil =>
    intro k
    cases k with
    | zero => exact Nat.le_refl 0
    | succ k => exact Nat.le_refl 0
  | cons c rest ih =>
    intro k
    cases k with
    | zero => simp [line_to_char_spec]
    | succ k =>
      rw [line_to_char_spec]
      simp only [List.length_cons]
      have := ih (if c = 10 then k else k + 1)
      omega

theorem line_to_char_spec_ge (cs : List Nat) : ∀ k, k > count_newlines cs →
    line_to_char_spec cs k = cs.length := by
  induction cs with
  | nil =>
    intro k hk
    cases k with
    | zero => rfl
    | succ k => rfl
  | cons c rest ih =>
    intro k hk
    rw [count_newlines] at hk
    cases k with
    | zero => omega
    | succ k =>
      rw [line_to_char_spec, List.length_cons]
      by_cases hcnl : c = 10
      · subst hcnl
        simp only [beq_self_eq_true, if_true] at hk
        rw [if_pos rfl, ih k (by omega)]
        omega
      · rw [if_neg hcnl]
        have hbne : ¬((c == 10) = true) := by simpa using hcnl
        rw [if_neg hbne] at hk
        rw [ih (k + 1) (by omega)]
        omega

theorem rope_line_to_char_loop_spec (r : Rope) (cs : List Nat)
    (hchar : ∀ i, i < r.char_len → rope_char_at (some r) i = cs.getD i 0)
    (hlen : cs.length = r.char_len) (line : Nat) :
    ∀ fuel i cur, r.char_len - i = fuel → i ≤ r.char_len → cur ≤ line →
    rope_line_to_char_loop r line i cur = i + line_to_char_spec (cs.drop i) (line - cur) := by
  intro fuel
  induction fuel with
  | zero =>
    intro i cur hfuel hi _
    rw [rope_line_to_char_loop, if_neg (by omega)]
    have hdrop : cs.drop i = [] := by
      apply List.drop_eq_nil_of_le
      omega
    rw [hdrop]
    have hnil : line_to_char_spec [] (line - cur) = 0 := by
      cases hlc : line - cur <;> rfl
    rw [hnil]
    omega
  | succ fuel ih =>
    intro i cur hfuel hi hcur
    have hilt : i < r.char_len := by omega
    rw [rope_line_to_char_loop, if_pos hilt]
    by_cases heq : (cur == line) = true
    · rw [if_pos heq]
      simp only [beq_iff_eq] at heq
      rw [heq, Nat.sub_self]
      have hz : line_to_char_spec (cs.drop i) 0 = 0 := by
        cases cs.drop i <;> rfl
      rw [hz]
      omega
    · rw [if_neg heq]
      simp only [beq_iff_eq] at heq
      have hcur' : cur < line := by omega
      have hibnd : i < cs.length := by omega
      have hdrop : cs.drop i = cs[i] :: cs.drop (i + 1) :=
        List.drop_eq_getElem_cons hibnd
      have hgetD : cs.getD i 0 = cs[i] := List.getD_eq_getElem cs 0 hibnd
      have hsucc : line - cur = (line - (cur + 1)) + 1 := by omega
      rw [hdrop, hsucc, line_to_char_spec]
      by_cases hnl : (rope_char_at (some r) i == 10) = true
      · rw [if_pos hnl]
        simp only [beq_iff_eq] at hnl
        have hcs : cs[i] = 10 := by rw [← hgetD, ← hchar i hilt, hnl]
        rw [if_pos hcs]
        rw [ih (i + 1) (cur + 1) (by omega) (by omega) (by omega)]
        omega
      · rw [if_neg hnl]
        simp only [beq_iff_eq] at hnl
        have hcs : ¬cs[i] = 10 := by
          rw [← hgetD, ← hchar i hilt]
          exact hnl
        rw [if_neg hcs, ← hsucc]
        rw [ih (i + 1) cur (by omega) (by omega) (by omega)]
        omega

/-! ## Stats of the re-ingested flat string -/

theorem rope_to_string_length (r : Rope) (h : r.wf = true) :
    (rope_to_string (some r)).length = r.byte_len := by
  rw [rope_to_string_eq r (Rope.wf_swf r h)]
  obtain ⟨root, bl, cl, nl⟩ := r
  cases root with
  | none =>
    simp only [Rope.wf, Bool.and_eq_true, beq_iff_eq] at h
    simp only [optToList, List.length_nil]
    omega
  | some n =>
    simp only [Rope.wf, Bool.and_eq_true, beq_iff_eq] at h
    simp only [optToList]
    omega

theorem rope_reingest_stats (r : Rope) (h : r.wf = true) (hc : r.complete = true) :
    rope_stats (some (rope_new_from_str (rope_to_string (some r))))
      = rope_stats (some r) := by
  have hts := rope_to_string_eq r (Rope.wf_swf r h)
  obtain ⟨root, bl, cl, nl⟩ := r
  cases root with
  | none =>
    simp only [Rope.wf, Bool.and_eq_true, beq_iff_eq] at h
    simp only [optToList] at hts
    rw [hts, rope_new_from_str]
    simp only [List.length_nil, gt_iff_lt, lt_irrefl, if_false]
    simp [rope_stats, rope_new]
    omega
  | some n =>
    simp only [Rope.wf, Bool.and_eq_true, beq_iff_eq] at h
    obtain ⟨⟨⟨hwk, hb⟩, hcc⟩, hn⟩ := h
    simp only [Rope.complete] at hc
    simp only [optToList] at hts
    rw [hts, rope_new_from_str]
    by_cases hz : n.toList.length > 0
    · rw [if_pos hz]
      simp only [rope_stats, RopeStats.mk.injEq]
      refine ⟨hb.symm, ?_, ?_⟩
      · rw [← leaf_char_sum_toList n hc, hcc]
      · rw [← leaf_newline_sum_toList n, hn]
    · rw [if_neg hz]
      have hnil : n.toList = [] := List.eq_nil_of_length_eq_zero (by omega)
      simp only [rope_stats, rope_new, RopeStats.mk.injEq]
      have h1 : cl = 0 := by
        rw [hcc, leaf_char_sum_toList n hc, hnil, utf8_char_count]
      have h2 : nl = 0 := by
        rw [hn, leaf_newline_sum_toList, hnil]
        rfl
      omega

/-! ## The claims -/

/-- C1: for every rope `r` whose cached weights are consistent — which
holds unconditionally for every rope produced by the public API, see
`prog_eval_swf` — and every byte position `p`, splitting `r` at `p` with
`rope_split_bytes` and concatenating the two resulting ropes with
`rope_concat` yields a rope whose `rope_to_string` content equals that of
`r`. -/
theorem claim_c1_split_concat_content (r : Rope) (h : r.swf = true) (p : Nat) :
    rope_to_string (some (rope_concat (rope_split_bytes r p).1
      (rope_split_bytes r p).2)) = rope_to_string (some r) :=
  split_concat_to_string r h p

/-- Witness for C1 at the spec's concrete scenario: `split("0123456789", 3)`
re-concatenated restores the content. -/
theorem claim_c1_witness :
    (rope_new_from_str [48, 49, 50, 51, 52, 53, 54, 55, 56, 57]).swf = true ∧
    rope_to_string (some (rope_concat
      (rope_split_bytes (rope_new_from_str [48, 49, 50, 51, 52, 53, 54, 55, 56, 57]) 3).1
      (rope_split_bytes (rope_new_from_str [48, 49, 50, 51, 52, 53, 54, 55, 56, 57]) 3).2))
      = rope_to_string (some (rope_new_from_str [48, 49, 50, 51, 52, 53, 54, 55, 56, 57])) :=
  ⟨by simp +decide [Rope.swf, rope_new_from_str, node_new_leaf, Node.setColor,
      weights_ok, Node.toList, utf8_char_count, utf8_char_len, count_newlines,
      leaf_char_sum, leaf_newline_sum],
   claim_c1_split_concat_content _ (by simp +decide [Rope.swf, rope_new_from_str,
      node_new_leaf, Node.setColor, weights_ok, Node.toList, utf8_char_count,
      utf8_char_len, count_newlines, leaf_char_sum, leaf_newline_sum]) 3⟩

/-- Counterexample to C2 as stated: after the public operation sequence
`from_str "\xC3\xA9"` (the 2-byte character U+00E9) followed by
`rope_insert_bytes` of `"A"` at the clamped byte position 1 (interior to the
character), the rope's cached `char_len` is 2 while the sum over the leaves
of the recomputed UTF-8 character counts is 3. -/
theorem claim_c2_counterexample :
    (Prog.eval misaligned_insert_prog).char_len = 2 ∧
    leaf_char_sum_o (Prog.eval misaligned_insert_prog).root = 3 := by
  constructor <;>
    simp +decide [Prog.eval, misaligned_insert_prog, rope_new_from_str,
      rope_insert_bytes, node_insert_bytes, node_new_leaf, node_new_branch,
      node_update_weights, balance, rotate_left, rotate_right, flip_colors,
      Node.setColor, Node.isLeaf, Node.nodeColor, node_color, left_child,
      right_child, node_byte_len, node_char_len, node_newline_count, Node.toList,
      utf8_char_len, utf8_char_count, count_newlines, leaf_char_sum,
      leaf_char_sum_o, rope_new]

/-- C2 (amended): after every sequence of the public byte-keyed operations
in which each `rope_insert_bytes` position, after clamping, falls on a UTF-8
character boundary of the leaf it lands in (`Prog.insertsAligned`), the rope
handle is fully metric-consistent (`Rope.wf`): the cached `char_len` (and
`byte_len` and `newlines`) equal the per-leaf recomputation, and every
branch's cached left-weights equal the recursive totals of its left
subtree. -/
theorem claim_c2_metric_invariants (p : Prog) (h : p.insertsAligned = true) :
    p.eval.wf = true :=
  prog_eval_wf p h

/-- Witness for C2 at the spec's concrete scenario:
`insert_bytes(new_from_bytes("Helo", 4), 2, "l", 1)`. -/
theorem claim_c2_witness :
    (Prog.insert (Prog.fromStr [72, 101, 108, 111]) 2 [108]).insertsAligned = true ∧
    (Prog.insert (Prog.fromStr [72, 101, 108, 111]) 2 [108]).eval.wf = true :=
  ⟨by simp +decide [Prog.insertsAligned, Prog.eval, Rope.insert_ok_at, insert_ok,
      rope_new_from_str, node_new_leaf, Node.setColor, utf8_char_count,
      utf8_char_len, count_newlines],
   claim_c2_metric_invariants _ (by simp +decide [Prog.insertsAligned, Prog.eval,
      Rope.insert_ok_at, insert_ok, rope_new_from_str, node_new_leaf,
      Node.setColor, utf8_char_count, utf8_char_len, count_newlines])⟩

/-- Counterexample to C3 as stated: after the three public mutating
operations `from_str "ccc"; insert_bytes(2, "yy"); insert_bytes(2, "yy")`
the tree contains a red branch with a red child, so the claimed red-black
coloring invariant is violated (the root, however, is BLACK). -/
theorem claim_c3_counterexample : (Prog.eval red_red_prog).rb_ok = false := by
  simp +decide [Prog.eval, red_red_prog, rope_new_from_str, rope_insert_bytes,
    node_insert_bytes, node_new_leaf, node_new_branch, node_update_weights,
    balance, rotate_left, rotate_right, flip_colors, Node.setColor, Node.isLeaf,
    Node.nodeColor, node_color, left_child, right_child, node_byte_len,
    node_char_len, node_newline_count, Node.toList, utf8_char_len,
    utf8_char_count, count_newlines, Rope.rb_ok, no_red_red, rope_new]

/-- C3 (amended): after every sequence of the public mutating operations the
root of the resulting tree is BLACK (each public mutation forces it); the
stronger no-red-node-has-a-red-child property does not survive the
restricted balancing (see the counterexample). -/
theorem claim_c3_root_black (p : Prog) : p.eval.root_black = true :=
  prog_eval_root_black p

/-- Counterexample to C4 as stated: the public operations
`from_str "\xC3\xF0\x9F\x98\x80"; insert_bytes(1, "A")` split the buffer
right after the `C3` lead byte, which merges three former continuation-byte
characters into the `F0` sequence; the cached `char_len` is 5 while the
leaves only hold 3 characters, and at `k = 3 ∈ [0, char_len]` the
round-trip returns 5. -/
theorem claim_c4_counterexample :
    3 ≤ (Prog.eval merge_insert_prog).char_len ∧
    rope_byte_to_char (some (Prog.eval merge_insert_prog))
      (rope_char_to_byte (some (Prog.eval merge_insert_prog)) 3) ≠ 3 := by
  constructor <;>
    simp +decide [Prog.eval, merge_insert_prog, rope_new_from_str,
      rope_insert_bytes, node_insert_bytes, node_new_leaf, node_new_branch,
      node_update_weights, balance, rotate_left, rotate_right, flip_colors,
      Node.setColor, Node.isLeaf, Node.nodeColor, node_color, left_child,
      right_child, node_byte_len, node_char_len, node_newline_count,
      Node.toList, utf8_char_len, utf8_char_count, count_newlines, rope_new,
      rope_char_to_byte, node_char_to_byte, utf8_char_to_byte,
      rope_byte_to_char, node_byte_to_char, utf8_byte_to_char, utf8_b2c_scan]

/-- C4 (amended): for every metric-consistent rope `r` (`Rope.wf`, which
holds after every operation sequence whose inserts land on character
boundaries, see `prog_eval_wf`) and every character index `k ≤ char_len`,
`rope_byte_to_char (rope_char_to_byte k) = k`. -/
theorem claim_c4_position_roundtrip (r : Rope) (h : r.wf = true) (k : Nat)
    (hk : k ≤ r.char_len) :
    rope_byte_to_char (some r) (rope_char_to_byte (some r) k) = k :=
  rope_b2c_c2b r h k hk

/-- Witness for C4 on the spec's "caf\xC3\xA9" scenario at `k = 3`. -/
theorem claim_c4_witness :
    (rope_new_from_str [99, 97, 102, 0xC3, 0xA9]).wf = true ∧
    3 ≤ (rope_new_from_str [99, 97, 102, 0xC3, 0xA9]).char_len ∧
    rope_byte_to_char (some (rope_new_from_str [99, 97, 102, 0xC3, 0xA9]))
      (rope_char_to_byte (some (rope_new_from_str [99, 97, 102, 0xC3, 0xA9])) 3) = 3 :=
  ⟨by simp +decide [Rope.wf, rope_new_from_str, node_new_leaf, Node.setColor,
      weights_ok, Node.toList, utf8_char_count, utf8_char_len, count_newlines,
      leaf_char_sum, leaf_newline_sum],
   by simp +decide [rope_new_from_str, node_new_leaf, Node.setColor,
      utf8_char_count, utf8_char_len, count_newlines],
   claim_c4_position_roundtrip _
     (by simp +decide [Rope.wf, rope_new_from_str, node_new_leaf, Node.setColor,
        weights_ok, Node.toList, utf8_char_count, utf8_char_len, count_newlines,
        leaf_char_sum, leaf_newline_sum]) 3
     (by simp +decide [rope_new_from_str, node_new_leaf, Node.setColor,
        utf8_char_count, utf8_char_len, count_newlines])⟩

/-- Counterexample to C5 as stated: the bare continuation byte `0x80` is an
invalid UTF-8 sequence start, yet `utf8_decode` returns the raw byte value
`(0x80, 1)` rather than `(U+FFFD, 1)`. -/
theorem claim_c5_counterexample :
    utf8_decode [0x80] = (0x80, 1) ∧ utf8_decode [0x80] ≠ (0xFFFD, 1) := by
  decide

/-- C5 (amended): `utf8_decode` returns `(U+FFFD, 1)` when the advertised
sequence length exceeds the remaining input (a truncated sequence); for an
invalid lead byte — which `utf8_char_len` classifies as length 1 — it
consumes exactly one byte but returns the byte value itself, not U+FFFD. -/
theorem claim_c5_decode_invalid (first : Nat) (rest : List Nat) :
    (utf8_char_len first > (first :: rest).length →
      utf8_decode (first :: rest) = (0xFFFD, 1)) ∧
    (utf8_char_len first = 1 → utf8_decode (first :: rest) = (first, 1)) :=
  ⟨utf8_decode_trunc first rest, utf8_decode_len_one first rest⟩

/-- Witness for C5: the truncated 2-byte lead `0xC3` alone decodes to
`(U+FFFD, 1)`, and the invalid lead byte `0x80` decodes to `(0x80, 1)`. -/
theorem claim_c5_witness :
    utf8_char_len 0xC3 > ([0xC3] : List Nat).length ∧
    utf8_decode [0xC3] = (0xFFFD, 1) ∧
    utf8_char_len 0x80 = 1 ∧
    utf8_decode [0x80] = (0x80, 1) :=
  ⟨by decide, (claim_c5_decode_invalid 0xC3 []).1 (by decide),
   by decide, (claim_c5_decode_invalid 0x80 []).2 (by decide)⟩

/-- Counterexample to C6 as stated: the rope obtained by the public
operations `split("\xC3\xA9", 1); concat` holds the two halves of U+00E9 in
separate leaves; at position `0 < char_len` the code returns U+FFFD while
the 0th character of the rope's `to_string` content is U+00E9. -/
theorem claim_c6_counterexample :
    0 < split_e9_rope.char_len ∧
    rope_char_at (some split_e9_rope) 0 ≠
      (utf8_chars (rope_to_string (some split_e9_rope))).getD 0 0 := by
  constructor <;>
    simp +decide [split_e9_rope, rope_split_bytes, rope_concat, rope_of_tree,
      node_split_recursive, split_leaf, rope_new_from_str, rope_new,
      node_new_leaf, node_new_branch, Node.setColor, node_byte_len,
      node_char_len, node_newline_count, Node.toList, utf8_char_len,
      utf8_char_count, count_newlines, rope_char_at, rope_char_to_byte,
      node_char_to_byte, utf8_char_to_byte, node_byte_decode, utf8_decode,
      rope_to_string, utf8_chars]

/-- C6 (amended): for every metric-consistent rope whose leaves are
scan-complete (no UTF-8 sequence split across a leaf boundary),
`rope_char_at` returns the `p`-th scalar of the decoded `rope_to_string`
content when `p < char_len`, and 0 when `p ≥ char_len`. -/
theorem claim_c6_char_at (r : Rope) (hw : r.wf = true) (hc : r.complete = true)
    (p : Nat) :
    (p < r.char_len →
      rope_char_at (some r) p = (utf8_chars (rope_to_string (some r))).getD p 0) ∧
    (r.char_len ≤ p → rope_char_at (some r) p = 0) := by
  constructor
  · exact fun hp => rope_char_at_content r hw hc p hp
  · intro hp
    rw [rope_char_at, if_pos hp]

/-- Witness for C6 on the spec's scenario `"AB\xE6\x97\xA5\xE6\x9C\xAC"`:
position 2 decodes to U+65E5 (and the theorem links it to the content). -/
theorem claim_c6_witness :
    (rope_new_from_str [0x41, 0x42, 0xE6, 0x97, 0xA5, 0xE6, 0x9C, 0xAC]).wf = true ∧
    (rope_new_from_str [0x41, 0x42, 0xE6, 0x97, 0xA5, 0xE6, 0x9C, 0xAC]).complete = true ∧
    2 < (rope_new_from_str [0x41, 0x42, 0xE6, 0x97, 0xA5, 0xE6, 0x9C, 0xAC]).char_len ∧
    rope_char_at (some (rope_new_from_str [0x41, 0x42, 0xE6, 0x97, 0xA5, 0xE6, 0x9C, 0xAC])) 2
      = (utf8_chars (rope_to_string (some (rope_new_from_str
          [0x41, 0x42, 0xE6, 0x97, 0xA5, 0xE6, 0x9C, 0xAC])))).getD 2 0 ∧
    rope_char_at (some (rope_new_from_str [0x41, 0x42, 0xE6, 0x97, 0xA5, 0xE6, 0x9C, 0xAC])) 2
      = 0x65E5 ∧
    rope_char_at (some (rope_new_from_str [0x41, 0x42, 0xE6, 0x97, 0xA5, 0xE6, 0x9C, 0xAC])) 3
      = 0x672C :=
  ⟨by simp +decide [Rope.wf, rope_new_from_str, node_new_leaf, Node.setColor,
      weights_ok, Node.toList, utf8_char_count, utf8_char_len, count_newlines,
      leaf_char_sum, leaf_newline_sum],
   by simp +decide [Rope.complete, rope_new_from_str, node_new_leaf,
      Node.setColor, leaves_complete, scan_complete, utf8_char_len],
   by simp +decide [rope_new_from_str, node_new_leaf, Node.setColor,
      utf8_char_count, utf8_char_len, count_newlines],
   (claim_c6_char_at _
     (by simp +decide [Rope.wf, rope_new_from_str, node_new_leaf, Node.setColor,
        weights_ok, Node.toList, utf8_char_count, utf8_char_len, count_newlines,
        leaf_char_sum, leaf_newline_sum])
     (by simp +decide [Rope.complete, rope_new_from_str, node_new_leaf,
        Node.setColor, leaves_complete, scan_complete, utf8_char_len]) 2).1
     (by simp +decide [rope_new_from_str, node_new_leaf, Node.setColor,
        utf8_char_count, utf8_char_len, count_newlines]),
   by simp +decide [rope_new_from_str, node_new_leaf, Node.setColor,
      utf8_char_count, utf8_char_len, count_newlines, rope_char_at,
      rope_char_to_byte, node_char_to_byte, utf8_char_to_byte,
      node_byte_decode, utf8_decode, Node.toList],
   by simp +decide [rope_new_from_str, node_new_leaf, Node.setColor,
      utf8_char_count, utf8_char_len, count_newlines, rope_char_at,
      rope_char_to_byte, node_char_to_byte, utf8_char_to_byte,
      node_byte_decode, utf8_decode, Node.toList]⟩

/-- C7: insert and delete never reject a position argument: an insert
position past the end is clamped to the end, a delete length extending past
the end is truncated to the available range, and zero-length inserts and
deletes return the rope unchanged. -/
theorem claim_c7_clamping (r : Rope) (p a n : Nat) (s : List Nat) :
    (r.byte_len ≤ p → rope_insert_bytes r p s = rope_insert_bytes r r.byte_len s) ∧
    (a < r.byte_len → r.byte_len ≤ a + n →
      rope_delete_bytes r a n = rope_delete_bytes r a (r.byte_len - a)) ∧
    rope_insert_bytes r p [] = r ∧
    rope_delete_bytes r a 0 = r := by
  refine ⟨?_, ?_, ?_, ?_⟩
  · intro h
    rw [rope_insert_bytes, rope_insert_bytes]
    have h1 : (if p > r.byte_len then r.byte_len else p) = r.byte_len := by
      split <;> omega
    have h2 : (if r.byte_len > r.byte_len then r.byte_len else r.byte_len)
        = r.byte_len := by
      split <;> rfl
    rw [h1, h2]
  · intro h1 h2
    rw [rope_delete_bytes, rope_delete_bytes]
    have e1 : (if a + n > r.byte_len then r.byte_len - a else n)
        = r.byte_len - a := by
      split <;> omega
    have e2 : (if a + (r.byte_len - a) > r.byte_len then r.byte_len - a
        else r.byte_len - a) = r.byte_len - a := by
      split <;> rfl
    rw [e1, e2]
  · rw [rope_insert_bytes]
    simp
  · rw [rope_delete_bytes]
    by_cases h0 : a ≥ r.byte_len
    · rw [if_pos h0]
    · rw [if_neg h0]
      have e : (if a + 0 > r.byte_len then r.byte_len - a else 0) = 0 := by
        split <;> omega
      rw [e]
      simp

/-- Witness for C7 on the rope `"abc"` with an out-of-range insert position
and an over-long delete length. -/
theorem claim_c7_witness :
    ((rope_new_from_str [97, 98, 99]).byte_len ≤ 5 →
      rope_insert_bytes (rope_new_from_str [97, 98, 99]) 5 [120]
        = rope_insert_bytes (rope_new_from_str [97, 98, 99])
            (rope_new_from_str [97, 98, 99]).byte_len [120]) ∧
    (1 < (rope_new_from_str [97, 98, 99]).byte_len →
      (rope_new_from_str [97, 98, 99]).byte_len ≤ 1 + 7 →
      rope_delete_bytes (rope_new_from_str [97, 98, 99]) 1 7
        = rope_delete_bytes (rope_new_from_str [97, 98, 99]) 1
            ((rope_new_from_str [97, 98, 99]).byte_len - 1)) ∧
    rope_insert_bytes (rope_new_from_str [97, 98, 99]) 5 [] =
      rope_new_from_str [97, 98, 99] ∧
    rope_delete_bytes (rope_new_from_str [97, 98, 99]) 1 0 =
      rope_new_from_str [97, 98, 99] :=
  claim_c7_clamping (rope_new_from_str [97, 98, 99]) 5 1 7 [120]

/-- Counterexample to C8 as stated: the rope built by
`rope_new_from_str "\xC0\x8A\x41"` has byte-level newline count 0, so
`line_count = 1` and the claim demands `line_to_char(1) = char_len = 2`;
but the first character is an overlong encoding that decodes to the newline
scalar, so the scan returns 1. -/
theorem claim_c8_counterexample :
    rope_line_count (some overlong_newline_rope) ≤ 1 ∧
    rope_line_to_char (some overlong_newline_rope) 1 ≠
      overlong_newline_rope.char_len := by
  constructor <;>
    simp +decide [overlong_newline_rope, rope_new_from_str, node_new_leaf,
      Node.setColor, utf8_char_count, utf8_char_len, count_newlines,
      rope_line_count, rope_line_to_char, rope_line_to_char_loop, rope_char_at,
      rope_char_to_byte, node_char_to_byte, utf8_char_to_byte, node_byte_decode,
      utf8_decode, Node.toList]

/-- C8 (amended): for every metric-consistent rope with scan-complete leaves
whose byte-level newline count agrees with the newline count of the decoded
character sequence (no overlong-encoded newline), `rope_line_to_char k`
returns the character index immediately after the `k`-th newline character
of the content — clamped to `char_len`, as captured by `line_to_char_spec` —
and in particular returns `char_len` whenever `k ≥ rope_line_count`. -/
theorem claim_c8_line_to_char (r : Rope) (hw : r.wf = true) (hc : r.complete = true)
    (hnl : count_newlines (rope_to_string (some r)) =
      count_newlines (utf8_chars (rope_to_string (some r)))) (k : Nat) :
    rope_line_to_char (some r) k =
      line_to_char_spec (utf8_chars (rope_to_string (some r))) k ∧
    (rope_line_count (some r) ≤ k → rope_line_to_char (some r) k = r.char_len) := by
  have hsc : scan_complete (rope_to_string (some r)) = true := by
    rw [rope_to_string_eq r (Rope.wf_swf r hw)]
    obtain ⟨root, bl, cl, nl⟩ := r
    cases root with
    | none =>
      simp only [optToList]
      rw [scan_complete]
    | some n =>
      simp only [Rope.complete] at hc
      exact scan_complete_of_leaves n hc
  have hlen : (utf8_chars (rope_to_string (some r))).length = r.char_len := by
    rw [utf8_chars_length _ hsc]
    rw [rope_to_string_eq r (Rope.wf_swf r hw)]
    obtain ⟨root, bl, cl, nl⟩ := r
    cases root with
    | none =>
      simp only [Rope.wf, Bool.and_eq_true, beq_iff_eq] at hw
      simp only [optToList]
      rw [utf8_char_count]
      omega
    | some n =>
      simp only [Rope.wf, Bool.and_eq_true, beq_iff_eq] at hw
      simp only [Rope.complete] at hc
      simp only [optToList]
      rw [← leaf_char_sum_toList n hc]
      omega
  have hchar : ∀ i, i < r.char_len → rope_char_at (some r) i =
      (utf8_chars (rope_to_string (some r))).getD i 0 :=
    fun i hi => rope_char_at_content r hw hc i hi
  have hmain : rope_line_to_char (some r) k =
      line_to_char_spec (utf8_chars (rope_to_string (some r))) k := by
    rw [rope_line_to_char]
    rw [rope_line_to_char_loop_spec r _ hchar hlen k r.char_len 0 0
      (by omega) (by omega) (by omega)]
    simp
  refine ⟨hmain, fun hk => ?_⟩
  rw [hmain]
  have hnlr : r.newlines = count_newlines (utf8_chars (rope_to_string (some r))) := by
    rw [← hnl]
    rw [rope_to_string_eq r (Rope.wf_swf r hw)]
    obtain ⟨root, bl, cl, nl⟩ := r
    cases root with
    | none =>
      simp only [Rope.wf, Bool.and_eq_true, beq_iff_eq] at hw
      simp only [optToList]
      rw [count_newlines]
      omega
    | some n =>
      simp only [Rope.wf, Bool.and_eq_true, beq_iff_eq] at hw
      simp only [optToList]
      rw [← leaf_newline_sum_toList n]
      omega
  rw [line_to_char_spec_ge _ k (by
    rw [← hnlr]
    simp only [rope_line_count] at hk
    omega)]
  exact hlen

/-- Witness for C8 on `"a\nb"` at `k = 1` (the character right after the
newline is at index 2) and the theorem's second part at `k = 2 ≥
line_count`. -/
theorem claim_c8_witness :
    (rope_new_from_str [97, 10, 98]).wf = true ∧
    (rope_new_from_str [97, 10, 98]).complete = true ∧
    count_newlines (rope_to_string (some (rope_new_from_str [97, 10, 98]))) =
      count_newlines (utf8_chars (rope_to_string (some (rope_new_from_str [97, 10, 98])))) ∧
    rope_line_to_char (some (rope_new_from_str [97, 10, 98])) 1 =
      line_to_char_spec (utf8_chars (rope_to_string (some (rope_new_from_str [97, 10, 98])))) 1 :=
  ⟨by simp +decide [Rope.wf, rope_new_from_str, node_new_leaf, Node.setColor,
      weights_ok, Node.toList, utf8_char_count, utf8_char_len, count_newlines,
      leaf_char_sum, leaf_newline_sum],
   by simp +decide [Rope.complete, rope_new_from_str, node_new_leaf,
      Node.setColor, leaves_complete, scan_complete, utf8_char_len],
   by simp +decide [rope_new_from_str, node_new_leaf, Node.setColor,
      utf8_char_count, utf8_char_len, count_newlines, rope_to_string,
      Node.toList, utf8_chars, utf8_decode],
   (claim_c8_line_to_char _
     (by simp +decide [Rope.wf, rope_new_from_str, node_new_leaf, Node.setColor,
        weights_ok, Node.toList, utf8_char_count, utf8_char_len, count_newlines,
        leaf_char_sum, leaf_newline_sum])
     (by simp +decide [Rope.complete, rope_new_from_str, node_new_leaf,
        Node.setColor, leaves_complete, scan_complete, utf8_char_len])
     (by simp +decide [rope_new_from_str, node_new_leaf, Node.setColor,
        utf8_char_count, utf8_char_len, count_newlines, rope_to_string,
        Node.toList, utf8_chars, utf8_decode]) 1).1⟩

/-- Counterexample to C9 as stated: the rope holding the two halves of
U+00E9 in separate leaves (built by public `split`/`concat`) has
`to_string` of the correct length, but re-ingesting that buffer yields
`chars = 1` whereas the rope's cached stats say `chars = 2`. -/
theorem claim_c9_counterexample :
    rope_stats (some (rope_new_from_str (rope_to_string (some split_e9_rope))))
      ≠ rope_stats (some split_e9_rope) := by
  simp +decide [split_e9_rope, rope_split_bytes, rope_concat, rope_of_tree,
    node_split_recursive, split_leaf, rope_new_from_str, rope_new,
    node_new_leaf, node_new_branch, Node.setColor, node_byte_len,
    node_char_len, node_newline_count, Node.toList, utf8_char_len,
    utf8_char_count, count_newlines, rope_to_string, rope_stats]

/-- C9 (amended): for every metric-consistent rope the buffer produced by
`rope_to_string` has length `byte_len`; if additionally every leaf is
scan-complete (no UTF-8 sequence split across leaves), building a new rope
from that buffer with `rope_new_from_str` yields identical stats. -/
theorem claim_c9_to_string_roundtrip (r : Rope) (h : r.wf = true) :
    (rope_to_string (some r)).length = r.byte_len ∧
    (r.complete = true →
      rope_stats (some (rope_new_from_str (rope_to_string (some r))))
        = rope_stats (some r)) :=
  ⟨rope_to_string_length r h, fun hc => rope_reingest_stats r h hc⟩

/-- Witness for C9 on the spec's `"Hello, World!"` scenario. -/
theorem claim_c9_witness :
    (rope_new_from_str [72, 101, 108, 108, 111]).wf = true ∧
    (rope_new_from_str [72, 101, 108, 108, 111]).complete = true ∧
    (rope_to_string (some (rope_new_from_str [72, 101, 108, 108, 111]))).length
      = (rope_new_from_str [72, 101, 108, 108, 111]).byte_len ∧
    rope_stats (some (rope_new_from_str (rope_to_string
        (some (rope_new_from_str [72, 101, 108, 108, 111])))))
      = rope_stats (some (rope_new_from_str [72, 101, 108, 108, 111])) :=
  ⟨by simp +decide [Rope.wf, rope_new_from_str, node_new_leaf, Node.setColor,
      weights_ok, Node.toList, utf8_char_count, utf8_char_len, count_newlines,
      leaf_char_sum, leaf_newline_sum],
   by simp +decide [Rope.complete, rope_new_from_str, node_new_leaf,
      Node.setColor, leaves_complete, scan_complete, utf8_char_len],
   (claim_c9_to_string_roundtrip _
     (by simp +decide [Rope.wf, rope_new_from_str, node_new_leaf, Node.setColor,
        weights_ok, Node.toList, utf8_char_count, utf8_char_len, count_newlines,
        leaf_char_sum, leaf_newline_sum])).1,
   (claim_c9_to_string_roundtrip _
     (by simp +decide [Rope.wf, rope_new_from_str, node_new_leaf, Node.setColor,
        weights_ok, Node.toList, utf8_char_count, utf8_char_len, count_newlines,
        leaf_char_sum, leaf_newline_sum])).2
     (by simp +decide [Rope.complete, rope_new_from_str, node_new_leaf,
        Node.setColor, leaves_complete, scan_complete, utf8_char_len])⟩

/-- C10: every read-only query applied to a NULL rope handle returns the
empty-document answer: `rope_byte_length` and `rope_char_length` return 0,
`rope_char_at` returns 0 for every position, `rope_stats` returns all-zero
stats, and `rope_line_count` returns 1. -/
theorem claim_c10_null_queries :
    rope_byte_length none = 0 ∧ rope_char_length none = 0 ∧
    (∀ p, rope_char_at none p = 0) ∧
    rope_stats none = ⟨0, 0, 0⟩ ∧ rope_line_count none = 1 :=
  ⟨rfl, rfl, fun _ => rfl, rfl, rfl⟩

end RopeModel
